import Mathlib

/-!
# DuplicateFinder: hash table and duplicate index

A shallow embedding of `hash.c`, `pair.c`, `table.c` and, from `duplicates.c`,
`check_file` and `main` for path arguments that are regular files (the directory
walk of `check_directory` is not embedded).

Conventions of the embedding.

* A C string is the list of its bytes before the terminating NUL.
* A bucket's chain (the `next` pointers after the sentinel head) is a `List Pair`.
* A function returns `Except Fault _`: `.error f` records that at that point the
  C code leaves defined behaviour (division by zero, an array index outside the
  bucket array, overflow of a signed counter, a read through a null pointer) or
  reads the union member that was not written, whose content the embedding
  does not represent.
* Conversion to `int` is reduction modulo `2 ^ 32` (two's complement, as the
  usual compilers define it).
* `calloc` and `strdup` are taken to succeed.
* `size_t` counters that count live heap objects (`size`, `dupCount`) are natural
  numbers: a 64-bit address space cannot hold `2 ^ 64` of them.
-/

namespace DuplicateFinder

/-! ## Strings and faults -/

abbrev Byte := Fin 256

abbrev CString := List Byte

/-- Largest value of the C type `int` (32 bits). -/
def INT_MAX : Nat := 2147483647

inductive Fault where
  | divisionByZero
  | outOfBounds
  | signedOverflow
  | inactiveMember
  | nullDereference
  deriving DecidableEq, Repr

deriving instance DecidableEq for Except

/-- Conversion of an unsigned 64-bit value to `int`: reduction modulo `2 ^ 32`
into the range `-2 ^ 31 .. 2 ^ 31 - 1`. -/
def to_int (x : Nat) : Int :=
  if x % 2 ^ 32 < 2 ^ 31 then ((x % 2 ^ 32 : Nat) : Int) else ((x % 2 ^ 32 : Nat) : Int) - 2 ^ 32

/-! ## hash.c -/

def FNV_OFFSET_BASIS : Nat := 0xcbf29ce484222325

def FNV_PRIME : Nat := 0x100000001b3

/-- The loop of `hash_from_data`: `i` is the `int` counter, `hash` the 64-bit
accumulator; the list holds the bytes `bytes[i], bytes[i+1], ...` still to read. -/
def hash_loop : List Byte → Nat → Nat → Except Fault Nat
  | [], _, hash => .ok hash
  | b :: rest, i, hash =>
    let hash := hash ^^^ b.val
    let hash := hash * FNV_PRIME % 2 ^ 64
    if i = INT_MAX then .error .signedOverflow else hash_loop rest (i + 1) hash

/-- The function `hash_from_data(data, n)` with `n` the length of `data`. -/
def hash_from_data (data : List Byte) : Except Fault Nat :=
  hash_loop data 0 FNV_OFFSET_BASIS

/-! ## pair.c -/

/-- The enumeration `Type` of `pair.h`. -/
inductive PType where
  | NUMBER
  | STRING
  deriving DecidableEq, Repr

/-- The union `Value`: the member that was written, with its content. -/
inductive Value where
  | number (n : Int)
  | string (s : CString)
  deriving DecidableEq, Repr

/-- One node of a chain, without its `next` pointer. -/
structure Pair where
  key : CString
  value : Value
  type : PType
  deriving DecidableEq, Repr

/-- The function `pair_update(p, value, type)`: the new type is stored, then the
member of `value` selected by `type` is read and stored (a string is copied). -/
def pair_update (p : Pair) (value : Value) (type : PType) : Except Fault Pair :=
  match type, value with
  | .STRING, .string s => .ok { p with type := .STRING, value := .string s }
  | .STRING, .number _ => .error .inactiveMember
  | .NUMBER, .number n => .ok { p with type := .NUMBER, value := .number n }
  | .NUMBER, .string _ => .error .inactiveMember

/-- The function `pair_create(key, value, next, type)`: a zeroed node gets a copy of
the key and is filled by `pair_update`; the result is the chain that starts at
the new node. -/
def pair_create (key : CString) (value : Value) (next : List Pair) (type : PType) :
    Except Fault (List Pair) :=
  match pair_update { key := key, value := .number 0, type := .NUMBER } value type with
  | .error e => .error e
  | .ok p => .ok (p :: next)

/-- Text written by `%ld`. -/
def decimal (n : Int) : CString :=
  let digits (m : Nat) : CString := (Nat.toDigits 10 m).map (fun c => Fin.ofNat c.toNat)
  if n < 0 then (45 : Byte) :: digits n.natAbs else digits n.natAbs

/-- The function `pair_format(p, stream)`: the bytes appended to the stream. -/
def pair_format (p : Pair) : Except Fault CString :=
  match p.type, p.value with
  | .STRING, .string s => .ok (p.key ++ [(9 : Byte)] ++ s ++ [(10 : Byte)])
  | .STRING, .number _ => .error .inactiveMember
  | .NUMBER, .number n => .ok (p.key ++ [(9 : Byte)] ++ decimal n ++ [(10 : Byte)])
  | .NUMBER, .string _ => .error .inactiveMember

/-! ## table.c -/

structure Table where
  buckets : Nat → List Pair
  capacity : Nat
  size : Nat

/-- The function `table_create(capacity)` when both allocations succeed. The
constant `DEFAULT_CAPACITY` of `table.h` is a parameter. -/
def table_create (DEFAULT_CAPACITY : Nat) (capacity : Nat) : Table :=
  { size := 0
    capacity := if capacity = 0 then DEFAULT_CAPACITY else capacity
    buckets := fun _ => [] }

/-- The first two statements of `table_insert`, `table_search` and `table_remove`:
`int bucket = hash_from_data(key, strlen(key)) % t->capacity` and the address
`&(t->buckets[bucket])`. The result is the index of the bucket that is used. -/
def bucket (t : Table) (key : CString) : Except Fault Nat :=
  match hash_from_data key with
  | .error e => .error e
  | .ok h =>
    if t.capacity = 0 then .error .divisionByZero
    else
      let b : Int := to_int (h % t.capacity)
      if 0 ≤ b ∧ b < (t.capacity : Int) then .ok b.toNat else .error .outOfBounds

/-- The loop of `table_insert` on the chain of one bucket, followed by the
`pair_create` at the tail. The flag tells whether a node was created. -/
def insert_chain (key : CString) (value : Value) (type : PType) :
    List Pair → Except Fault (List Pair × Bool)
  | [] =>
    match pair_create key value [] type with
    | .error e => .error e
    | .ok c => .ok (c, true)
  | p :: rest =>
    if p.key = key then
      match pair_update p value type with
      | .error e => .error e
      | .ok q => .ok (q :: rest, false)
    else
      match insert_chain key value type rest with
      | .error e => .error e
      | .ok (c, created) => .ok (p :: c, created)

def table_insert (t : Table) (key : CString) (value : Value) (type : PType) :
    Except Fault Table :=
  match bucket t key with
  | .error e => .error e
  | .ok b =>
    match insert_chain key value type (t.buckets b) with
    | .error e => .error e
    | .ok (c, created) =>
      .ok { t with
        buckets := Function.update t.buckets b c
        size := if created then t.size + 1 else t.size }

/-- The loop of `table_search` on the chain of one bucket. -/
def search_chain (key : CString) : List Pair → Option Value
  | [] => none
  | p :: rest => if p.key = key then some p.value else search_chain key rest

/-- The function `table_search(t, key)`: `none` stands for the `NULL` result. -/
def table_search (t : Table) (key : CString) : Except Fault (Option Value) :=
  match bucket t key with
  | .error e => .error e
  | .ok b => .ok (search_chain key (t.buckets b))

/-- The loop of `table_remove` on the chain of one bucket: the chain without the
first node whose key matches, or `none` when no node matches. -/
def remove_chain (key : CString) : List Pair → Option (List Pair)
  | [] => none
  | p :: rest =>
    if p.key = key then some rest
    else
      match remove_chain key rest with
      | none => none
      | some c => some (p :: c)

def table_remove (t : Table) (key : CString) : Except Fault (Bool × Table) :=
  match bucket t key with
  | .error e => .error e
  | .ok b =>
    match remove_chain key (t.buckets b) with
    | none => .ok (false, t)
    | some c => .ok (true, { t with buckets := Function.update t.buckets b c, size := t.size - 1 })

/-- The inner loop of `table_format`: `pair_format` on every node of a chain. -/
def format_chain : List Pair → Except Fault CString
  | [] => .ok []
  | p :: rest =>
    match pair_format p with
    | .error e => .error e
    | .ok line =>
      match format_chain rest with
      | .error e => .error e
      | .ok out => .ok (line ++ out)

/-- The outer loop of `table_format`, entered with `int i` below the capacity and
`n + 1` buckets still to visit; `i++` overflows at `INT_MAX`. -/
def format_buckets (t : Table) : Nat → Nat → Except Fault CString
  | 0, _ => .ok []
  | n + 1, i =>
    match format_chain (t.buckets i) with
    | .error e => .error e
    | .ok out =>
      if i = INT_MAX then .error .signedOverflow
      else
        match format_buckets t n (i + 1) with
        | .error e => .error e
        | .ok more => .ok (out ++ more)

/-- The function `table_format(t, stream)`: the bytes appended to the stream. -/
def table_format (t : Table) : Except Fault CString :=
  format_buckets t t.capacity 0

/-! ## duplicates.c -/

structure Options where
  count : Bool
  quiet : Bool
  deriving DecidableEq, Repr

/-- Number of bytes of an MD5 digest (OpenSSL). -/
def MD5_DIGEST_LENGTH : Nat := 16

/-- What a call `hash_from_file(path, key)` leaves behind: its return value and
the C string found in the buffer `key` afterwards. When the call fails before
writing, that string is whatever the uninitialised buffer held. -/
structure Digest where
  gotKey : Bool
  key : CString
  deriving DecidableEq, Repr

/-- A successful call: it returned `true` after writing two hexadecimal digits
for each of the `MD5_DIGEST_LENGTH` bytes. -/
def Digest.computed (d : Digest) : Prop :=
  d.gotKey = true ∧ d.key.length = 2 * MD5_DIGEST_LENGTH

instance (d : Digest) : Decidable d.computed := by
  unfold Digest.computed; infer_instance

/-- What the process has done outside the table: the bytes written to standard
output and the paths handed to `hash_from_file`, in call order. -/
structure Process where
  stdout : CString
  digested : List CString
  deriving DecidableEq, Repr

/-- The text `" is duplicate of "`. -/
def is_duplicate_of : CString :=
  [32, 105, 115, 32, 100, 117, 112, 108, 105, 99, 97, 116, 101, 32, 111, 102, 32]

/-- How `check_file` ends: it returns a count and leaves a table, or it calls
`exit`. -/
inductive Checked where
  | returned (n : Nat) (checksums : Table) (w : Process)
  | exited (status : Nat) (w : Process)

/-- The function `check_file(path, checksums, options)`; `hash_from_file` is the
file system and MD5 seen from outside. -/
def check_file (hash_from_file : CString → Digest) (path : CString) (checksums : Table)
    (options : Options) (w : Process) : Except Fault Checked :=
  let d := hash_from_file path
  let w := { w with digested := w.digested ++ [path] }
  match table_search checksums d.key with
  | .error e => .error e
  | .ok v =>
    match v, d.gotKey with
    | some found, true =>
      if !options.count && !options.quiet then
        match found with
        | .number _ => .error .inactiveMember
        | .string s =>
          let w := { w with stdout := w.stdout ++ (path ++ is_duplicate_of ++ s ++ [(10 : Byte)]) }
          if options.quiet then .ok (.exited 0 w) else .ok (.returned 1 checksums w)
      else if options.quiet then .ok (.exited 0 w)
      else .ok (.returned 1 checksums w)
    | _, _ =>
      match table_insert checksums d.key (.string path) .STRING with
      | .error e => .error e
      | .ok t => .ok (.returned 0 t w)

/-- How the argument loop of `main` ends. -/
inductive Scanned where
  | finished (dupCount : Nat) (t : Table) (w : Process)
  | exited (status : Nat) (w : Process)

/-- The second `while` loop of `main` for arguments that are not directories
(`is_directory` is false for each of them). -/
def main_loop (hash_from_file : CString → Digest) (options : Options) :
    List CString → Table → Nat → Process → Except Fault Scanned
  | [], t, dupCount, w => .ok (.finished dupCount t w)
  | arg :: args, t, dupCount, w =>
    match check_file hash_from_file arg t options w with
    | .error e => .error e
    | .ok (.exited status w1) => .ok (.exited status w1)
    | .ok (.returned n t1 w1) => main_loop hash_from_file options args t1 (dupCount + n) w1

/-- How the flag loop of `main` ends: `usage` was called, which exits, or the loop
stopped at the first argument that does not start with `-`. -/
inductive Flags where
  | usage (status : Nat)
  | parsed (options : Options) (args : List CString)
  deriving DecidableEq, Repr

/-- The first `while` loop of `main` on the arguments from `argv[argInd]` on. Its
test reads `argv[argInd][0]` before it compares `argInd` with `argc`, and
`argv[argc]` is a null pointer. -/
def parse_flags : List CString → Options → Except Fault Flags
  | [], _ => .error .nullDereference
  | arg :: rest, o =>
    if arg.head? = some (45 : Byte) then
      if arg = [45, 104] then .ok (.usage 0)
      else if arg = [45, 99] then parse_flags rest { o with count := true }
      else if arg = [45, 113] then parse_flags rest { o with quiet := true }
      else .ok (.usage 1)
    else .ok (.parsed o (arg :: rest))

/-- The function `main` for path arguments that are not directories; `argv` is
given without the program name, so `argc = argv.length + 1`. The result is the
exit status and what the process did. -/
def main (DEFAULT_CAPACITY : Nat) (hash_from_file : CString → Digest) (argv : List CString) :
    Except Fault (Nat × Process) :=
  let t := table_create DEFAULT_CAPACITY 0
  if argv.length + 1 < 2 then .ok (1, { stdout := [], digested := [] })
  else
    match parse_flags argv { count := false, quiet := false } with
    | .error e => .error e
    | .ok (.usage status) => .ok (status, { stdout := [], digested := [] })
    | .ok (.parsed o args) =>
      match main_loop hash_from_file o args t 0 { stdout := [], digested := [] } with
      | .error e => .error e
      | .ok (.exited status w) => .ok (status, w)
      | .ok (.finished dupCount _ w) =>
        if o.quiet then .ok (1, w)
        else if o.count then
          .ok (0, { w with stdout := w.stdout ++ (decimal dupCount ++ [(10 : Byte)]) })
        else .ok (0, w)

/-! ## Closed forms and specification-level definitions -/

/-- The hash of a byte string as a fold: the value `hash_from_data` returns when
its counter does not overflow. -/
def hash_value (data : List Byte) : Nat :=
  data.foldl (fun h b => (h ^^^ b.val) * FNV_PRIME % 2 ^ 64) FNV_OFFSET_BASIS

/-- The union member that a value holds. -/
def Value.type : Value → PType
  | .number _ => .NUMBER
  | .string _ => .STRING

/-- The chain after a well-typed `table_insert`: update in place or append. -/
def chain_put (key : CString) (value : Value) (type : PType) : List Pair → List Pair
  | [] => [{ key := key, value := value, type := type }]
  | p :: rest =>
    if p.key = key then { key := p.key, value := value, type := type } :: rest
    else p :: chain_put key value type rest

/-- The capacities for which every bucket index fits the `int` that holds it. -/
def Table.indexable (t : Table) : Prop :=
  0 < t.capacity ∧ t.capacity ≤ 2 ^ 31

instance (t : Table) : Decidable t.indexable := by
  unfold Table.indexable; infer_instance

/-- The bucket a key belongs to: `hash mod capacity`. -/
def Table.home (t : Table) (key : CString) : Nat :=
  hash_value key % t.capacity

/-- Well-formed tables: every node sits in the chain of its key's bucket, no
chain repeats a key, every node's type names the union member it holds, and
`size` counts the nodes. -/
structure Table.WF (t : Table) : Prop where
  placed : ∀ b, ∀ p ∈ t.buckets b, b < t.capacity ∧ t.home p.key = b
  nodup : ∀ b, ((t.buckets b).map Pair.key).Nodup
  typed : ∀ b, ∀ p ∈ t.buckets b, p.value.type = p.type
  counted : t.size = ∑ b in Finset.range t.capacity, (t.buckets b).length

/-- Some chain of the table holds a node with this key. -/
def Table.has_key (t : Table) (key : CString) : Prop :=
  ∃ b, ∃ p ∈ t.buckets b, p.key = key

/-- Path of the earliest file among `files` whose digest key is `d`. -/
def earliest (hash_from_file : CString → Digest) (files : List CString) (d : CString) :
    Option CString :=
  files.find? (fun p => decide ((hash_from_file p).key = d))

/-- The line default mode prints for a duplicate. -/
def duplicate_line (path original : CString) : CString :=
  path ++ is_duplicate_of ++ original ++ [(10 : Byte)]

/-- The table is the index of the files `seen`: it has the default capacity, is
well formed, maps each digest key to the earliest path that produced it and
nothing else, and `size` is the number of distinct digest keys. -/
structure Indexes (D : Nat) (hash_from_file : CString → Digest) (t : Table)
    (seen : List CString) : Prop where
  capacity_eq : t.capacity = D
  wf : t.WF
  lookup : ∀ d, search_chain d (t.buckets (t.home d))
    = (earliest hash_from_file seen d).map Value.string
  size_eq : t.size = (seen.map (fun p => (hash_from_file p).key)).toFinset.card

/-- The text default mode is expected to print for `files` when the files `seen`
were processed before them: one line for each file whose digest key an earlier
file produced, naming the earliest such file. -/
def duplicate_report (hash_from_file : CString → Digest) :
    List CString → List CString → CString
  | _, [] => []
  | seen, f :: rest =>
    (match earliest hash_from_file seen (hash_from_file f).key with
      | some g => duplicate_line f g
      | none => []) ++ duplicate_report hash_from_file (seen ++ [f]) rest

/-- The number of files among `files` whose digest key an earlier file produced,
when the files `seen` were processed before them. -/
def duplicate_count (hash_from_file : CString → Digest) :
    List CString → List CString → Nat
  | _, [] => 0
  | seen, f :: rest =>
    (if (earliest hash_from_file seen (hash_from_file f).key).isSome then 1 else 0)
      + duplicate_count hash_from_file (seen ++ [f]) rest

/-- The tables the scan can hold: the table `main` creates, and every table that
a returning call of `check_file` leaves behind. -/
inductive ScanTable (D : Nat) (hash_from_file : CString → Digest) : Table → Prop where
  | created : ScanTable D hash_from_file (table_create D 0)
  | checked (t : Table) (path : CString) (options : Options) (w : Process) (n : Nat)
      (t1 : Table) (w1 : Process) :
      ScanTable D hash_from_file t →
      check_file hash_from_file path t options w = .ok (.returned n t1 w1) →
      ScanTable D hash_from_file t1

/-- A sample file system: every file is readable, and its digest key is 31 zero
digits followed by the first byte of its path. -/
def sample_digest (path : CString) : Digest :=
  { gotKey := true, key := List.replicate 31 (48 : Byte) ++ [path.headD 48] }

/-- The paths `a1`, `b`, `a2`; under `sample_digest` the first and the third have
the same digest key. -/
def sample_files : List CString := [[97, 49], [98], [97, 50]]

/-- One call of the table interface. -/
inductive Op where
  | insert (key : CString) (value : Value) (type : PType)
  | remove (key : CString)
  deriving DecidableEq, Repr

/-- The table after one call. -/
def apply_op (t : Table) : Op → Except Fault Table
  | .insert key value type => table_insert t key value type
  | .remove key =>
    match table_remove t key with
    | .error e => .error e
    | .ok (_, t1) => .ok t1

/-- The table after a sequence of calls. -/
def run_ops (t : Table) : List Op → Except Fault Table
  | [] => .ok t
  | op :: ops =>
    match apply_op t op with
    | .error e => .error e
    | .ok t1 => run_ops t1 ops

/-- A call the embedding covers: the key is shorter than `2 ^ 31` bytes and an
inserted value holds the union member its type names. -/
def Op.valid : Op → Prop
  | .insert key value type => key.length ≤ INT_MAX ∧ value.type = type
  | .remove key => key.length ≤ INT_MAX

instance (op : Op) : Decidable op.valid := by
  cases op <;> unfold Op.valid <;> infer_instance

/-- The live entries as one list, after one call: an insert of an absent key
appends, an insert of a present key replaces value and type where the entry
stands, a remove deletes the entry. -/
def live_step (entries : List Pair) : Op → List Pair
  | .insert key value type => chain_put key value type entries
  | .remove key => (remove_chain key entries).getD entries

/-- The live entries after a sequence of calls on an empty table, each at the
place its creating insert gave it. -/
def live_entries (ops : List Op) : List Pair :=
  ops.foldl live_step []

/-- The line `table_format` writes for an entry: key, tab, value, newline. -/
def line_of (p : Pair) : CString :=
  p.key ++ [(9 : Byte)] ++
    (match p.value with
      | .string s => s
      | .number n => decimal n) ++ [(10 : Byte)]

/-- The entries of `entries` that belong to bucket `b` of a table with
`capacity` buckets, in the order of `entries`. -/
def in_bucket (capacity b : Nat) (entries : List Pair) : List Pair :=
  entries.filter (fun p => decide (hash_value p.key % capacity = b))

/-- The expected output: buckets by ascending index, inside a bucket the order of
`entries`. -/
def expected_format (capacity : Nat) (entries : List Pair) : CString :=
  (List.range capacity).flatMap (fun b => (in_bucket capacity b entries).flatMap line_of)

/-- The keys that were inserted, in the order of their first insert. -/
def first_inserted : List Op → List CString
  | [] => []
  | .insert key _ _ :: ops => key :: (first_inserted ops).filter (fun k => decide (k ≠ key))
  | .remove _ :: ops => first_inserted ops

/-- The live entries ordered by the first insert of their key. -/
def live_by_first_insert (ops : List Op) : List Pair :=
  (first_inserted ops).filterMap
    (fun k => (live_entries ops).find? (fun p => decide (p.key = k)))

/-- Sample calls: insert `a`, insert `b`, remove `a`, insert `a` again. -/
def reinsert_ops : List Op :=
  [.insert [97] (.number 1) .NUMBER, .insert [98] (.number 2) .NUMBER, .remove [97],
    .insert [97] (.number 3) .NUMBER]

/-- A sample file system in which no file can be opened: `hash_from_file` returns
`false` and the buffer `key` still holds the one-byte string `x`. -/
def unreadable (_ : CString) : Digest :=
  { gotKey := false, key := [120] }

/-- The sample file system `sample_digest` with the file `b` unreadable: the call
for `b` returns `false` and the buffer `key` still holds the digest key written
by the call before it, that of `a1`. -/
def stale_digest (path : CString) : Digest :=
  if path = [98] then { gotKey := false, key := List.replicate 31 (48 : Byte) ++ [97] }
  else sample_digest path

/-- The value the most recent insert of `key` gave, unless a remove of `key`
came after it; `cur` is the answer before the calls. -/
def last_write (key : CString) (ops : List Op) (cur : Option Value) : Option Value :=
  ops.foldl
    (fun acc op =>
      match op with
      | .insert k v _ => if k = key then some v else acc
      | .remove k => if k = key then none else acc)
    cur

/-- The keys of the insert calls of a sequence. -/
def inserted_keys : List Op → List CString
  | [] => []
  | .insert key _ _ :: ops => key :: inserted_keys ops
  | .remove _ :: ops => inserted_keys ops

/-- A sequence of insert calls only. -/
def inserts_only (ops : List Op) : Prop :=
  ∀ op ∈ ops, ∃ key value type, op = .insert key value type

/-- The FNV-1 hash in the order the reference defines it: for each byte, multiply
by the prime modulo `2 ^ 64` first, then XOR the byte. -/
def fnv1_reference (data : List Byte) : Nat :=
  data.foldl (fun h b => (h * FNV_PRIME % 2 ^ 64) ^^^ b.val) FNV_OFFSET_BASIS

/-! # Theorems -/

/-! ## Hashing and bucket selection -/

theorem hash_loop_ok (l : List Byte) (i h : Nat) (hi : i + l.length ≤ INT_MAX) :
    hash_loop l i h
      = .ok (l.foldl (fun h b => (h ^^^ b.val) * FNV_PRIME % 2 ^ 64) h) := by
  induction l generalizing i h with
  | nil => rfl
  | cons b rest ih =>
    have hne : i ≠ INT_MAX := by
      simp only [List.length_cons] at hi
      omega
    simp only [hash_loop, hne, if_false, List.foldl_cons]
    apply ih
    simp only [List.length_cons] at hi
    omega

theorem hash_from_data_ok (key : CString) (hk : key.length ≤ INT_MAX) :
    hash_from_data key = .ok (hash_value key) := by
  unfold hash_from_data hash_value
  exact hash_loop_ok key 0 _ (by omega)

theorem to_int_small (x : Nat) (hx : x < 2 ^ 31) : to_int x = (x : Int) := by
  unfold to_int
  have h1 : x % 2 ^ 32 = x := Nat.mod_eq_of_lt (by omega)
  rw [h1, if_pos hx]

theorem bucket_ok (t : Table) (key : CString) (h0 : 0 < t.capacity)
    (h1 : t.capacity ≤ 2 ^ 31) (hk : key.length ≤ INT_MAX) :
    bucket t key = .ok (hash_value key % t.capacity) := by
  have hlt : hash_value key % t.capacity < t.capacity := Nat.mod_lt _ h0
  have hne : t.capacity ≠ 0 := by omega
  unfold bucket
  rw [hash_from_data_ok key hk]
  simp only [hne, if_false]
  rw [to_int_small _ (by omega)]
  have : (0 : Int) ≤ ((hash_value key % t.capacity : Nat) : Int) ∧
      ((hash_value key % t.capacity : Nat) : Int) < (t.capacity : Int) := by
    constructor
    · exact Int.natCast_nonneg _
    · exact_mod_cast hlt
  rw [if_pos this, Int.toNat_natCast]

theorem pair_update_ok (p : Pair) (value : Value) (type : PType) (hty : value.type = type) :
    pair_update p value type = .ok { key := p.key, value := value, type := type } := by
  subst hty
  cases value <;> rfl

theorem insert_chain_ok (key : CString) (value : Value) (type : PType)
    (hty : value.type = type) (c : List Pair) :
    insert_chain key value type c
      = .ok (chain_put key value type c, (search_chain key c).isNone) := by
  induction c with
  | nil =>
    simp [insert_chain, pair_create, pair_update_ok _ _ _ hty, chain_put, search_chain]
  | cons p rest ih =>
    by_cases h : p.key = key
    · simp [insert_chain, h, pair_update_ok _ _ _ hty, chain_put, search_chain]
    · simp [insert_chain, h, ih, chain_put, search_chain]

/-! ## Chains -/

theorem search_chain_eq_none_iff (key : CString) (c : List Pair) :
    search_chain key c = none ↔ ∀ p ∈ c, p.key ≠ key := by
  induction c with
  | nil => simp [search_chain]
  | cons p rest ih =>
    by_cases h : p.key = key
    · simp [search_chain, h]
    · simp [search_chain, h, ih]

theorem search_chain_isSome_iff (key : CString) (c : List Pair) :
    (search_chain key c).isSome = true ↔ key ∈ c.map Pair.key := by
  rw [← Option.ne_none_iff_isSome, Ne, search_chain_eq_none_iff]
  simp only [List.mem_map]
  constructor
  · intro h
    by_contra hc
    exact h (fun p hp hk => hc ⟨p, hp, hk⟩)
  · rintro ⟨p, hp, hk⟩ h
    exact h p hp hk

theorem search_chain_mem (key : CString) (c : List Pair) (v : Value)
    (h : search_chain key c = some v) : ∃ p ∈ c, p.key = key ∧ p.value = v := by
  induction c with
  | nil => simp [search_chain] at h
  | cons p rest ih =>
    by_cases hk : p.key = key
    · simp only [search_chain, hk, if_true, Option.some.injEq] at h
      exact ⟨p, List.mem_cons_self _ _, hk, h⟩
    · simp only [search_chain, hk, if_false] at h
      obtain ⟨q, hq, hq2⟩ := ih h
      exact ⟨q, List.mem_cons_of_mem _ hq, hq2⟩

theorem search_chain_of_mem (c : List Pair) (hnd : (c.map Pair.key).Nodup) (p : Pair)
    (hp : p ∈ c) : search_chain p.key c = some p.value := by
  induction c with
  | nil => simp at hp
  | cons q rest ih =>
    simp only [List.map_cons, List.nodup_cons, List.mem_map, not_exists, not_and] at hnd
    rcases List.mem_cons.mp hp with rfl | hmem
    · simp [search_chain]
    · have hne : q.key ≠ p.key := fun h => hnd.1 p hmem h.symm
      simp only [search_chain, hne, if_false]
      exact ih hnd.2 hmem

theorem search_chain_put (key : CString) (value : Value) (type : PType) (k : CString)
    (c : List Pair) :
    search_chain k (chain_put key value type c)
      = if k = key then some value else search_chain k c := by
  induction c with
  | nil =>
    by_cases h : k = key
    · simp [chain_put, search_chain, h]
    · have h2 : key ≠ k := fun e => h e.symm
      simp [chain_put, search_chain, h, h2]
  | cons p rest ih =>
    by_cases hp : p.key = key
    · by_cases h : k = key
      · simp [chain_put, search_chain, hp, h]
      · have h2 : key ≠ k := fun e => h e.symm
        simp [chain_put, search_chain, hp, h, h2]
    · by_cases h : p.key = k
      · have h3 : k ≠ key := fun e => hp (h.trans e)
        simp [chain_put, search_chain, hp, h, h3]
      · simp [chain_put, search_chain, hp, h, ih]

theorem chain_put_of_absent (key : CString) (value : Value) (type : PType) (c : List Pair)
    (h : search_chain key c = none) :
    chain_put key value type c = c ++ [{ key := key, value := value, type := type }] := by
  induction c with
  | nil => rfl
  | cons p rest ih =>
    by_cases hp : p.key = key
    · simp [search_chain, hp] at h
    · simp only [search_chain, hp, if_false] at h
      simp [chain_put, hp, ih h]

theorem chain_put_keys_of_present (key : CString) (value : Value) (type : PType)
    (c : List Pair) (h : (search_chain key c).isSome = true) :
    (chain_put key value type c).map Pair.key = c.map Pair.key := by
  induction c with
  | nil => simp [search_chain] at h
  | cons p rest ih =>
    by_cases hp : p.key = key
    · simp [chain_put, hp]
    · simp only [search_chain, hp, if_false] at h
      simp [chain_put, hp, ih h]

theorem chain_put_length (key : CString) (value : Value) (type : PType) (c : List Pair) :
    (chain_put key value type c).length
      = if (search_chain key c).isNone then c.length + 1 else c.length := by
  induction c with
  | nil => simp [chain_put, search_chain]
  | cons p rest ih =>
    by_cases hp : p.key = key
    · simp [chain_put, search_chain, hp]
    · simp only [chain_put, hp, if_false, List.length_cons, ih, search_chain]
      split <;> rfl

theorem mem_chain_put (key : CString) (value : Value) (type : PType) (c : List Pair)
    (q : Pair) (hq : q ∈ chain_put key value type c) :
    q ∈ c ∨ q = { key := key, value := value, type := type } := by
  induction c with
  | nil =>
    right
    simpa [chain_put] using hq
  | cons p rest ih =>
    by_cases hp : p.key = key
    · simp only [chain_put, hp, if_true, List.mem_cons] at hq
      rcases hq with rfl | hq
      · right; rfl
      · left; exact List.mem_cons_of_mem _ hq
    · simp only [chain_put, hp, if_false, List.mem_cons] at hq
      rcases hq with rfl | hq
      · left; exact List.mem_cons_self _ _
      · rcases ih hq with h | h
        · left; exact List.mem_cons_of_mem _ h
        · right; exact h

theorem chain_put_keys (key : CString) (value : Value) (type : PType) (c : List Pair) :
    (chain_put key value type c).map Pair.key
      = if (search_chain key c).isNone then c.map Pair.key ++ [key] else c.map Pair.key := by
  cases h : search_chain key c with
  | none => simp [chain_put_of_absent _ _ _ _ h]
  | some v =>
    have hs : (search_chain key c).isSome = true := by rw [h]; rfl
    simp [chain_put_keys_of_present key value type c hs]

theorem chain_put_nodup (key : CString) (value : Value) (type : PType) (c : List Pair)
    (hnd : (c.map Pair.key).Nodup) : ((chain_put key value type c).map Pair.key).Nodup := by
  rw [chain_put_keys]
  cases h : search_chain key c with
  | none =>
    have hno : key ∉ c.map Pair.key := by
      rw [← search_chain_isSome_iff, h]; simp
    simp only [Option.isNone_none, if_true]
    exact List.Nodup.append hnd (List.nodup_singleton _) (by simpa using hno)
  | some v => simpa using hnd

theorem remove_chain_eq_none_iff (key : CString) (c : List Pair) :
    remove_chain key c = none ↔ search_chain key c = none := by
  induction c with
  | nil => simp [remove_chain, search_chain]
  | cons p rest ih =>
    by_cases hp : p.key = key
    · simp [remove_chain, search_chain, hp]
    · simp only [remove_chain, search_chain, hp, if_false, ← ih]
      cases remove_chain key rest <;> simp

theorem remove_chain_sublist (key : CString) (c r : List Pair)
    (h : remove_chain key c = some r) : r.Sublist c ∧ r.length + 1 = c.length := by
  induction c generalizing r with
  | nil => simp [remove_chain] at h
  | cons p rest ih =>
    by_cases hp : p.key = key
    · simp only [remove_chain, hp, if_true, Option.some.injEq] at h
      subst h
      exact ⟨List.sublist_cons_self _ _, rfl⟩
    · simp only [remove_chain, hp, if_false] at h
      cases hr : remove_chain key rest with
      | none => simp [hr] at h
      | some r2 =>
        simp only [hr, Option.some.injEq] at h
        subst h
        obtain ⟨h1, h2⟩ := ih r2 hr
        exact ⟨h1.cons₂ _, by simp [h2]⟩

theorem search_chain_remove_other (key k : CString) (c r : List Pair)
    (h : remove_chain key c = some r) (hk : k ≠ key) :
    search_chain k r = search_chain k c := by
  induction c generalizing r with
  | nil => simp [remove_chain] at h
  | cons p rest ih =>
    by_cases hp : p.key = key
    · simp only [remove_chain, hp, if_true, Option.some.injEq] at h
      subst h
      have : p.key ≠ k := fun e => hk (e.symm.trans hp)
      simp [search_chain, this]
    · simp only [remove_chain, hp, if_false] at h
      cases hr : remove_chain key rest with
      | none => simp [hr] at h
      | some r2 =>
        simp only [hr, Option.some.injEq] at h
        subst h
        simp only [search_chain, ih r2 hr]

theorem search_chain_remove_self (key : CString) (c r : List Pair)
    (hnd : (c.map Pair.key).Nodup) (h : remove_chain key c = some r) :
    search_chain key r = none := by
  induction c generalizing r with
  | nil => simp [remove_chain] at h
  | cons p rest ih =>
    simp only [List.map_cons, List.nodup_cons] at hnd
    by_cases hp : p.key = key
    · simp only [remove_chain, hp, if_true, Option.some.injEq] at h
      subst h
      rw [search_chain_eq_none_iff]
      intro q hq hqk
      exact hnd.1 (by rw [hp, ← hqk]; exact List.mem_map_of_mem _ hq)
    · simp only [remove_chain, hp, if_false] at h
      cases hr : remove_chain key rest with
      | none => simp [hr] at h
      | some r2 =>
        simp only [hr, Option.some.injEq] at h
        subst h
        simp only [search_chain, hp, if_false]
        exact ih r2 hnd.2 hr

/-! ## Table operations on indexable tables -/

theorem table_search_ok (t : Table) (key : CString) (ht : t.indexable)
    (hk : key.length ≤ INT_MAX) :
    table_search t key = .ok (search_chain key (t.buckets (t.home key))) := by
  unfold table_search
  rw [bucket_ok t key ht.1 ht.2 hk]
  rfl

theorem table_insert_ok (t : Table) (key : CString) (value : Value) (type : PType)
    (ht : t.indexable) (hk : key.length ≤ INT_MAX) (hty : value.type = type) :
    table_insert t key value type
      = .ok { buckets := Function.update t.buckets (t.home key)
                (chain_put key value type (t.buckets (t.home key)))
              capacity := t.capacity
              size := if (search_chain key (t.buckets (t.home key))).isNone
                then t.size + 1 else t.size } := by
  unfold table_insert
  rw [bucket_ok t key ht.1 ht.2 hk]
  simp only [insert_chain_ok key value type hty]
  rfl

theorem table_remove_ok (t : Table) (key : CString) (ht : t.indexable)
    (hk : key.length ≤ INT_MAX) :
    table_remove t key
      = .ok (match remove_chain key (t.buckets (t.home key)) with
        | none => (false, t)
        | some c => (true, { buckets := Function.update t.buckets (t.home key) c
                             capacity := t.capacity
                             size := t.size - 1 })) := by
  unfold table_remove
  rw [bucket_ok t key ht.1 ht.2 hk]
  simp only [Table.home]
  cases remove_chain key (t.buckets (hash_value key % t.capacity)) <;> rfl

theorem table_create_capacity (D c : Nat) :
    (table_create D c).capacity = if c = 0 then D else c := rfl

theorem table_create_wf (D c : Nat) : (table_create D c).WF where
  placed := by intro b p hp; simp [table_create] at hp
  nodup := by intro b; simp [table_create]
  typed := by intro b p hp; simp [table_create] at hp
  counted := by simp [table_create]

theorem sum_lengths_update (f : Nat → List Pair) (n b : Nat) (c : List Pair) (hb : b < n) :
    ∑ x in Finset.range n, (Function.update f b c x).length + (f b).length
      = ∑ x in Finset.range n, (f x).length + c.length := by
  have hmem : b ∈ Finset.range n := Finset.mem_range.mpr hb
  have h1 : (fun x => (Function.update f b c x).length)
      = Function.update (fun x => (f x).length) b c.length := by
    funext x
    by_cases hx : x = b
    · subst hx; simp
    · simp [Function.update_noteq hx]
  rw [h1, Finset.sum_update_of_mem hmem]
  have h2 := Finset.sum_sdiff (Finset.singleton_subset_iff.mpr hmem) (f := fun x => (f x).length)
  simp only [Finset.sum_singleton] at h2
  omega

theorem Table.WF.has_key_iff (t : Table) (hwf : t.WF) (key : CString) :
    t.has_key key ↔ (search_chain key (t.buckets (t.home key))).isSome = true := by
  rw [search_chain_isSome_iff]
  constructor
  · rintro ⟨b, p, hp, hk⟩
    have := (hwf.placed b p hp).2
    rw [hk] at this
    rw [this]
    exact hk ▸ List.mem_map_of_mem _ hp
  · intro h
    obtain ⟨p, hp, hk⟩ := List.mem_map.mp h
    exact ⟨_, p, hp, hk⟩

theorem table_insert_wf (t : Table) (key : CString) (value : Value) (type : PType)
    (ht : t.indexable) (hty : value.type = type) (hwf : t.WF) :
    Table.WF { buckets := Function.update t.buckets (t.home key)
                (chain_put key value type (t.buckets (t.home key)))
               capacity := t.capacity
               size := if (search_chain key (t.buckets (t.home key))).isNone
                 then t.size + 1 else t.size } := by
  have hb : t.home key < t.capacity := Nat.mod_lt _ ht.1
  constructor
  · intro b p hp
    by_cases hbb : b = t.home key
    · subst hbb
      simp only [Function.update_same] at hp
      rcases mem_chain_put _ _ _ _ _ hp with h | h
      · exact hwf.placed _ p h
      · subst h
        exact ⟨hb, rfl⟩
    · simp only [Function.update_noteq hbb] at hp
      exact hwf.placed b p hp
  · intro b
    by_cases hbb : b = t.home key
    · subst hbb
      simp only [Function.update_same]
      exact chain_put_nodup _ _ _ _ (hwf.nodup _)
    · simp only [Function.update_noteq hbb]
      exact hwf.nodup b
  · intro b p hp
    by_cases hbb : b = t.home key
    · subst hbb
      simp only [Function.update_same] at hp
      rcases mem_chain_put _ _ _ _ _ hp with h | h
      · exact hwf.typed _ p h
      · subst h
        exact hty
    · simp only [Function.update_noteq hbb] at hp
      exact hwf.typed b p hp
  · have hs := sum_lengths_update t.buckets t.capacity (t.home key)
      (chain_put key value type (t.buckets (t.home key))) hb
    have hc := hwf.counted
    rw [chain_put_length] at hs
    simp only
    split
    · rename_i h
      rw [if_pos h] at hs
      omega
    · rename_i h
      rw [if_neg h] at hs
      omega

theorem table_remove_wf (t : Table) (key : CString) (c : List Pair)
    (ht : t.indexable) (hwf : t.WF) (hc : remove_chain key (t.buckets (t.home key)) = some c) :
    Table.WF { buckets := Function.update t.buckets (t.home key) c
               capacity := t.capacity
               size := t.size - 1 } := by
  have hb : t.home key < t.capacity := Nat.mod_lt _ ht.1
  obtain ⟨hsub, hlen⟩ := remove_chain_sublist _ _ _ hc
  constructor
  · intro b p hp
    by_cases hbb : b = t.home key
    · subst hbb
      simp only [Function.update_same] at hp
      exact hwf.placed _ p (hsub.subset hp)
    · simp only [Function.update_noteq hbb] at hp
      exact hwf.placed b p hp
  · intro b
    by_cases hbb : b = t.home key
    · subst hbb
      simp only [Function.update_same]
      exact (hwf.nodup _).sublist (hsub.map _)
    · simp only [Function.update_noteq hbb]
      exact hwf.nodup b
  · intro b p hp
    by_cases hbb : b = t.home key
    · subst hbb
      simp only [Function.update_same] at hp
      exact hwf.typed _ p (hsub.subset hp)
    · simp only [Function.update_noteq hbb] at hp
      exact hwf.typed b p hp
  · have hs := sum_lengths_update t.buckets t.capacity (t.home key) c hb
    have hcnt := hwf.counted
    simp only
    omega

/-! ## The duplicate index -/

theorem earliest_append (hf : CString → Digest) (seen : List CString) (f d : CString) :
    earliest hf (seen ++ [f]) d
      = match earliest hf seen d with
        | some g => some g
        | none => if (hf f).key = d then some f else none := by
  unfold earliest
  rw [List.find?_append]
  cases h : List.find? (fun p => decide ((hf p).key = d)) seen with
  | some g => simp
  | none =>
    by_cases hk : (hf f).key = d
    · simp [hk]
    · simp [hk]

theorem earliest_eq_none_iff (hf : CString → Digest) (seen : List CString) (d : CString) :
    earliest hf seen d = none ↔ d ∉ seen.map (fun p => (hf p).key) := by
  unfold earliest
  simp [List.find?_eq_none]

theorem earliest_key (hf : CString → Digest) (seen : List CString) (d g : CString)
    (h : earliest hf seen d = some g) : (hf g).key = d ∧ g ∈ seen := by
  unfold earliest at h
  have h1 := List.find?_some h
  have h2 := List.mem_of_find?_eq_some h
  exact ⟨by simpa using h1, h2⟩

theorem indexes_create (D : Nat) (hf : CString → Digest) :
    Indexes D hf (table_create D 0) [] where
  capacity_eq := rfl
  wf := table_create_wf D 0
  lookup := by intro d; simp [table_create, earliest, search_chain]
  size_eq := by simp [table_create]

theorem Indexes.indexable {D : Nat} {hf : CString → Digest} {t : Table} {seen : List CString}
    (h : Indexes D hf t seen) (h0 : 0 < D) (h1 : D ≤ 2 ^ 31) : t.indexable := by
  unfold Table.indexable
  rw [h.capacity_eq]
  exact ⟨h0, h1⟩

theorem computed_length {d : Digest} (h : d.computed) : d.key.length ≤ INT_MAX := by
  have := h.2
  unfold MD5_DIGEST_LENGTH at this
  unfold INT_MAX
  omega

/-- A hit: the file's digest key was produced by an earlier file. -/
theorem check_file_hit (D : Nat) (hf : CString → Digest) (t : Table) (seen : List CString)
    (h0 : 0 < D) (h1 : D ≤ 2 ^ 31) (hidx : Indexes D hf t seen) (path g : CString)
    (hc : (hf path).computed) (hg : earliest hf seen (hf path).key = some g)
    (options : Options) (w : Process) :
    check_file hf path t options w
      = .ok (if options.quiet then
          .exited 0 { stdout := w.stdout, digested := w.digested ++ [path] }
        else
          .returned 1 t
            { stdout := if options.count then w.stdout
                else w.stdout ++ duplicate_line path g
              digested := w.digested ++ [path] }) := by
  have hs := table_search_ok t (hf path).key (hidx.indexable h0 h1) (computed_length hc)
  rw [hidx.lookup, hg] at hs
  unfold check_file
  simp only [hs, hc.1, Option.map_some']
  rcases options with ⟨c, q⟩
  cases c <;> cases q <;> simp [duplicate_line]

/-- A miss: no earlier file produced the file's digest key. -/
theorem check_file_miss (D : Nat) (hf : CString → Digest) (t : Table) (seen : List CString)
    (h0 : 0 < D) (h1 : D ≤ 2 ^ 31) (hidx : Indexes D hf t seen) (path : CString)
    (hc : (hf path).computed) (hg : earliest hf seen (hf path).key = none)
    (options : Options) (w : Process) :
    ∃ t1, table_insert t (hf path).key (.string path) .STRING = .ok t1 ∧
      check_file hf path t options w
        = .ok (.returned 0 t1 { stdout := w.stdout, digested := w.digested ++ [path] }) ∧
      Indexes D hf t1 (seen ++ [path]) ∧ t1.size = t.size + 1 := by
  have hix := hidx.indexable h0 h1
  have hlen := computed_length hc
  have hs := table_search_ok t (hf path).key hix hlen
  have hnone : search_chain (hf path).key (t.buckets (t.home (hf path).key)) = none := by
    rw [hidx.lookup, hg]; rfl
  rw [hnone] at hs
  have hins := table_insert_ok t (hf path).key (.string path) .STRING hix hlen rfl
  refine ⟨_, hins, ?_, ?_, ?_⟩
  · unfold check_file
    simp only [hs, hins]
  · constructor
    · exact hidx.capacity_eq
    · exact table_insert_wf t _ _ _ hix rfl hidx.wf
    · intro d
      rw [earliest_append]
      show search_chain d (Function.update t.buckets (t.home (hf path).key) _ (t.home d)) = _
      by_cases hb : t.home d = t.home (hf path).key
      · rw [hb, Function.update_same, search_chain_put]
        by_cases hd : d = (hf path).key
        · subst hd
          simp [hg]
        · have hd2 : (hf path).key ≠ d := fun e => hd e.symm
          rw [if_neg hd, ← hb, hidx.lookup]
          cases earliest hf seen d <;> simp [hd2]
      · have hd2 : (hf path).key ≠ d := fun e => hb (by rw [e])
        rw [Function.update_noteq hb, hidx.lookup]
        cases earliest hf seen d <;> simp [hd2]
    · show (if _ then t.size + 1 else t.size) = _
      rw [hnone, hidx.size_eq]
      have hnot : (hf path).key ∉ (seen.map (fun p => (hf p).key)).toFinset := by
        rw [List.mem_toFinset, ← earliest_eq_none_iff]
        exact hg
      simp [List.toFinset_append, Finset.card_insert_of_not_mem, hnot, Finset.union_comm]
      omega
  · show (if _ then t.size + 1 else t.size) = _
    rw [hnone]; rfl

/-! ## The argument loop -/

theorem Indexes.of_hit {D : Nat} {hf : CString → Digest} {t : Table} {seen : List CString}
    (hidx : Indexes D hf t seen) (f g : CString)
    (hg : earliest hf seen (hf f).key = some g) : Indexes D hf t (seen ++ [f]) := by
  refine ⟨hidx.capacity_eq, hidx.wf, ?_, ?_⟩
  · intro d
    rw [earliest_append, hidx.lookup]
    cases hd : earliest hf seen d with
    | some g2 => rfl
    | none =>
      have hne : (hf f).key ≠ d := by
        intro e
        rw [e, hd] at hg
        exact Option.noConfusion hg
      simp [hne]
  · rw [hidx.size_eq]
    have hmem : (hf f).key ∈ (seen.map (fun p => (hf p).key)).toFinset := by
      rw [List.mem_toFinset]
      by_contra hno
      rw [← earliest_eq_none_iff, hg] at hno
      exact Option.noConfusion hno
    rw [List.map_append, List.toFinset_append]
    simp only [List.map_cons, List.map_nil, List.toFinset_cons, List.toFinset_nil,
      insert_emptyc_eq]
    rw [Finset.union_comm, ← Finset.insert_eq, Finset.insert_eq_of_mem hmem]

theorem main_loop_not_quiet (D : Nat) (hf : CString → Digest) (h0 : 0 < D) (h1 : D ≤ 2 ^ 31)
    (options : Options) (hq : options.quiet = false) (files : List CString) :
    ∀ (seen : List CString) (t : Table) (n : Nat) (w : Process),
      Indexes D hf t seen → (∀ p ∈ files, (hf p).computed) →
      ∃ t1, main_loop hf options files t n w
          = .ok (.finished (n + duplicate_count hf seen files) t1
              { stdout := w.stdout ++
                  (if options.count then [] else duplicate_report hf seen files)
                digested := w.digested ++ files }) ∧
        Indexes D hf t1 (seen ++ files) := by
  induction files with
  | nil =>
    intro seen t n w hidx _
    refine ⟨t, ?_, by simpa using hidx⟩
    cases w
    simp [main_loop, duplicate_count, duplicate_report]
  | cons f rest ih =>
    intro seen t n w hidx hall
    have hc : (hf f).computed := hall f (List.mem_cons_self _ _)
    have hrest : ∀ p ∈ rest, (hf p).computed := fun p hp => hall p (List.mem_cons_of_mem _ hp)
    cases hg : earliest hf seen (hf f).key with
    | some g =>
      have hstep := check_file_hit D hf t seen h0 h1 hidx f g hc hg options w
      rw [hq] at hstep
      simp only [Bool.false_eq_true, if_false] at hstep
      obtain ⟨t1, hrun, hidx3⟩ := ih (seen ++ [f]) t (n + 1)
        { stdout := if options.count then w.stdout else w.stdout ++ duplicate_line f g
          digested := w.digested ++ [f] } (hidx.of_hit f g hg) hrest
      refine ⟨t1, ?_, by simpa using hidx3⟩
      simp only [main_loop, hstep, hrun, duplicate_count, duplicate_report, hg]
      cases options.count <;> simp [Nat.add_assoc]
    | none =>
      obtain ⟨t0, _, hstep, hidx2, _⟩ := check_file_miss D hf t seen h0 h1 hidx f hc hg options w
      obtain ⟨t1, hrun, hidx3⟩ := ih (seen ++ [f]) t0 (n + 0)
        { stdout := w.stdout, digested := w.digested ++ [f] } hidx2 hrest
      refine ⟨t1, ?_, by simpa using hidx3⟩
      simp only [main_loop, hstep, hrun, duplicate_count, duplicate_report, hg]
      cases options.count <;> simp

theorem duplicate_count_add (hf : CString → Digest) (files : List CString) :
    ∀ seen : List CString,
      duplicate_count hf seen files
          + ((seen ++ files).map (fun p => (hf p).key)).toFinset.card
        = files.length + (seen.map (fun p => (hf p).key)).toFinset.card := by
  induction files with
  | nil => intro seen; simp [duplicate_count]
  | cons f rest ih =>
    intro seen
    have h := ih (seen ++ [f])
    have hcard : ((seen ++ [f]).map (fun p => (hf p).key)).toFinset.card
        = (seen.map (fun p => (hf p).key)).toFinset.card
          + (if (earliest hf seen (hf f).key).isSome then 0 else 1) := by
      rw [List.map_append, List.toFinset_append]
      simp only [List.map_cons, List.map_nil, List.toFinset_cons, List.toFinset_nil,
        insert_emptyc_eq]
      rw [Finset.union_comm, ← Finset.insert_eq]
      cases hg : earliest hf seen (hf f).key with
      | none =>
        have hnot : (hf f).key ∉ (seen.map (fun p => (hf p).key)).toFinset := by
          rw [List.mem_toFinset, ← earliest_eq_none_iff]; exact hg
        simp [Finset.card_insert_of_not_mem hnot]
      | some g =>
        have hmem : (hf f).key ∈ (seen.map (fun p => (hf p).key)).toFinset := by
          rw [List.mem_toFinset]
          by_contra hno
          rw [← earliest_eq_none_iff, hg] at hno
          exact Option.noConfusion hno
        simp [Finset.insert_eq_of_mem hmem]
    have happ : seen ++ f :: rest = seen ++ [f] ++ rest := by simp
    rw [happ]
    simp only [duplicate_count, List.length_cons]
    rw [hcard] at h
    cases hs : (earliest hf seen (hf f).key).isSome
    · simp only [hs, Bool.false_eq_true, if_false] at h ⊢
      omega
    · simp only [hs, if_true] at h ⊢
      omega

theorem main_loop_append (hf : CString → Digest) (options : Options) (a b : List CString) :
    ∀ (t : Table) (n : Nat) (w : Process) (t1 : Table) (n1 : Nat) (w1 : Process),
      main_loop hf options a t n w = .ok (.finished n1 t1 w1) →
      main_loop hf options (a ++ b) t n w = main_loop hf options b t1 n1 w1 := by
  induction a with
  | nil =>
    intro t n w t1 n1 w1 h
    simp only [main_loop, Except.ok.injEq, Scanned.finished.injEq] at h
    obtain ⟨rfl, rfl, rfl⟩ := h
    rfl
  | cons f rest ih =>
    intro t n w t1 n1 w1 h
    simp only [main_loop, List.cons_append] at h ⊢
    cases hstep : check_file hf f t options w with
    | error e => simp [hstep] at h
    | ok r =>
      cases r with
      | exited status w2 => simp [hstep] at h
      | returned m t2 w2 =>
        simp only [hstep] at h ⊢
        exact ih _ _ _ _ _ _ h

/-- Quiet mode, no digest key repeats: every file is checked and nothing is
written. -/
theorem main_loop_quiet_fresh (D : Nat) (hf : CString → Digest) (h0 : 0 < D) (h1 : D ≤ 2 ^ 31)
    (options : Options) (files : List CString) :
    ∀ (seen : List CString) (t : Table) (n : Nat) (w : Process),
      Indexes D hf t seen → (∀ p ∈ files, (hf p).computed) →
      ((seen ++ files).map (fun p => (hf p).key)).Nodup →
      ∃ t1, main_loop hf options files t n w
          = .ok (.finished n t1 { stdout := w.stdout, digested := w.digested ++ files }) ∧
        Indexes D hf t1 (seen ++ files) := by
  induction files with
  | nil =>
    intro seen t n w hidx _ _
    refine ⟨t, ?_, by simpa using hidx⟩
    cases w
    simp [main_loop]
  | cons f rest ih =>
    intro seen t n w hidx hall hnd
    have hc : (hf f).computed := hall f (List.mem_cons_self _ _)
    have hrest : ∀ p ∈ rest, (hf p).computed := fun p hp => hall p (List.mem_cons_of_mem _ hp)
    have happ : seen ++ f :: rest = seen ++ [f] ++ rest := by simp
    have hg : earliest hf seen (hf f).key = none := by
      rw [earliest_eq_none_iff]
      intro hmem
      rw [List.map_append, List.nodup_append] at hnd
      exact hnd.2.2 hmem (by simp)
    obtain ⟨t0, _, hstep, hidx2, _⟩ := check_file_miss D hf t seen h0 h1 hidx f hc hg options w
    rw [happ] at hnd
    obtain ⟨t1, hrun, hidx3⟩ := ih (seen ++ [f]) t0 (n + 0)
      { stdout := w.stdout, digested := w.digested ++ [f] } hidx2 hrest hnd
    refine ⟨t1, ?_, by simpa using hidx3⟩
    simp only [main_loop, hstep, hrun]
    simp

/-! ## Tables of the scan -/

theorem hash_loop_overflow (l : List Byte) (i h : Nat) (hi : i ≤ INT_MAX)
    (hlen : INT_MAX < i + l.length) : hash_loop l i h = .error .signedOverflow := by
  induction l generalizing i h with
  | nil => simp at hlen; omega
  | cons b rest ih =>
    by_cases he : i = INT_MAX
    · simp [hash_loop, he]
    · simp only [hash_loop, he, if_false]
      apply ih
      · omega
      · simp only [List.length_cons] at hlen
        omega

theorem hash_from_data_length (key : CString) (h : Nat) (hok : hash_from_data key = .ok h) :
    key.length ≤ INT_MAX := by
  by_contra hc
  have := hash_loop_overflow key 0 FNV_OFFSET_BASIS (Nat.zero_le _) (by omega)
  unfold hash_from_data at hok
  rw [this] at hok
  exact Except.noConfusion hok

theorem bucket_length (t : Table) (key : CString) (b : Nat) (hok : bucket t key = .ok b) :
    key.length ≤ INT_MAX := by
  unfold bucket at hok
  cases hh : hash_from_data key with
  | error e => simp [hh] at hok
  | ok h => exact hash_from_data_length key h hh

theorem table_insert_length (t t1 : Table) (key : CString) (value : Value) (type : PType)
    (hok : table_insert t key value type = .ok t1) : key.length ≤ INT_MAX := by
  unfold table_insert at hok
  cases hb : bucket t key with
  | error e => simp [hb] at hok
  | ok b => exact bucket_length t key b hb

theorem table_search_length (t : Table) (key : CString) (v : Option Value)
    (hok : table_search t key = .ok v) : key.length ≤ INT_MAX := by
  unfold table_search at hok
  cases hb : bucket t key with
  | error e => simp [hb] at hok
  | ok b => exact bucket_length t key b hb

theorem check_file_returned (hf : CString → Digest) (path : CString) (t : Table)
    (options : Options) (w : Process) (n : Nat) (t1 : Table) (w1 : Process)
    (h : check_file hf path t options w = .ok (.returned n t1 w1)) :
    (n = 1 ∧ t1 = t) ∨
      (n = 0 ∧ table_insert t (hf path).key (.string path) .STRING = .ok t1) := by
  unfold check_file at h
  cases hs : table_search t (hf path).key with
  | error e => simp [hs] at h
  | ok v =>
    simp only [hs] at h
    split at h
    · split at h
      · split at h
        · exact Except.noConfusion h
        · split at h
          · simp at h
          · simp only [Except.ok.injEq, Checked.returned.injEq] at h
            exact Or.inl ⟨h.1.symm, h.2.1.symm⟩
      · split at h
        · simp at h
        · simp only [Except.ok.injEq, Checked.returned.injEq] at h
          exact Or.inl ⟨h.1.symm, h.2.1.symm⟩
    · cases hi : table_insert t (hf path).key (.string path) .STRING with
      | error e => simp [hi] at h
      | ok t2 =>
        simp only [hi, Except.ok.injEq, Checked.returned.injEq] at h
        exact Or.inr ⟨h.1.symm, by rw [h.2.1]⟩

/-- Every table of the scan has the default capacity, is well formed and holds
strings only. -/
theorem ScanTable.inv {D : Nat} {hf : CString → Digest} (h0 : 0 < D) (h1 : D ≤ 2 ^ 31)
    {t : Table} (h : ScanTable D hf t) :
    t.capacity = D ∧ t.WF ∧ ∀ b, ∀ p ∈ t.buckets b, p.type = .STRING := by
  induction h with
  | created =>
    refine ⟨rfl, table_create_wf D 0, ?_⟩
    intro b p hp
    simp [table_create] at hp
  | checked t path options w n t1 w1 _ hstep ih =>
    obtain ⟨hcap, hwf, hstr⟩ := ih
    have hix : t.indexable := by
      unfold Table.indexable; rw [hcap]; exact ⟨h0, h1⟩
    rcases check_file_returned hf path t options w n t1 w1 hstep with ⟨_, rfl⟩ | ⟨_, hins⟩
    · exact ⟨hcap, hwf, hstr⟩
    · have hlen := table_insert_length _ _ _ _ _ hins
      rw [table_insert_ok t (hf path).key (.string path) .STRING hix hlen rfl] at hins
      simp only [Except.ok.injEq] at hins
      subst hins
      refine ⟨hcap, table_insert_wf t (hf path).key (.string path) .STRING hix rfl hwf, ?_⟩
      intro b p hp
      by_cases hbb : b = t.home (hf path).key
      · subst hbb
        simp only [Function.update_same] at hp
        rcases mem_chain_put _ _ _ _ _ hp with h | h
        · exact hstr _ p h
        · subst h; rfl
      · simp only [Function.update_noteq hbb] at hp
        exact hstr b p hp

/-! ## The scan: first occurrence wins, totals, quiet mode -/

/-- C3 (first occurrence wins). Files with successfully computed digests are
processed by the argument loop in default mode, from the table `main` creates.
The loop finishes; standard output is `duplicate_report`, one line
`path is duplicate of original` for each file whose digest key an earlier file
produced, where `original` is the earliest such file; every node of the final
table holds, as a string, the path of the earliest file with the node's key, and
`table_search` returns exactly that path; and at each hit `check_file` prints the
line naming the earliest file, returns 1 and leaves the table as it was. -/
theorem first_occurrence_wins (D : Nat) (hf : CString → Digest) (h0 : 0 < D)
    (h1 : D ≤ 2 ^ 31) (files : List CString) (hall : ∀ p ∈ files, (hf p).computed) :
    ∃ n t,
      main_loop hf { count := false, quiet := false } files (table_create D 0) 0
          { stdout := [], digested := [] }
        = .ok (.finished n t { stdout := duplicate_report hf [] files, digested := files }) ∧
      (∀ b, ∀ p ∈ t.buckets b, ∃ g, earliest hf files p.key = some g ∧ p.value = .string g) ∧
      (∀ d : CString, d.length ≤ INT_MAX →
        table_search t d = .ok ((earliest hf files d).map Value.string)) ∧
      (∀ pre f post g, files = pre ++ f :: post → earliest hf pre (hf f).key = some g →
        ∃ n0 t0 w0,
          main_loop hf { count := false, quiet := false } pre (table_create D 0) 0
              { stdout := [], digested := [] } = .ok (.finished n0 t0 w0) ∧
          check_file hf f t0 { count := false, quiet := false } w0
            = .ok (.returned 1 t0
                { stdout := w0.stdout ++ duplicate_line f g
                  digested := w0.digested ++ [f] })) := by
  obtain ⟨t, hrun, hidx⟩ := main_loop_not_quiet D hf h0 h1 { count := false, quiet := false } rfl
    files [] (table_create D 0) 0 { stdout := [], digested := [] } (indexes_create D hf) hall
  simp only [List.nil_append, Bool.false_eq_true, if_false, Nat.zero_add] at hrun hidx
  refine ⟨_, t, hrun, ?_, ?_, ?_⟩
  · intro b p hp
    have hplace := (hidx.wf.placed b p hp).2
    have hfound := search_chain_of_mem (t.buckets b) (hidx.wf.nodup b) p hp
    rw [← hplace, hidx.lookup] at hfound
    cases hg : earliest hf files p.key with
    | none => rw [hg] at hfound; exact Option.noConfusion hfound
    | some g =>
      rw [hg] at hfound
      simp only [Option.map_some', Option.some.injEq] at hfound
      exact ⟨g, rfl, hfound.symm⟩
  · intro d hd
    rw [table_search_ok t d (hidx.indexable h0 h1) hd, hidx.lookup]
  · intro pre f post g hfiles hg
    have hpre : ∀ p ∈ pre, (hf p).computed := fun p hp =>
      hall p (by rw [hfiles]; exact List.mem_append_left _ hp)
    have hf1 : (hf f).computed := hall f (by rw [hfiles]; simp)
    obtain ⟨t0, hrun0, hidx0⟩ := main_loop_not_quiet D hf h0 h1 { count := false, quiet := false }
      rfl pre [] (table_create D 0) 0 { stdout := [], digested := [] } (indexes_create D hf) hpre
    simp only [List.nil_append] at hidx0
    refine ⟨_, t0, _, hrun0, ?_⟩
    have := check_file_hit D hf t0 pre h0 h1 hidx0 f g hf1 hg { count := false, quiet := false }
      { stdout := [] ++ (if ({ count := false, quiet := false } : Options).count then []
          else duplicate_report hf [] pre), digested := [] ++ pre }
    simpa using this

theorem first_occurrence_wins_witness :
    (0 < 1024 ∧ 1024 ≤ 2 ^ 31 ∧ ∀ p ∈ sample_files, (sample_digest p).computed) ∧
    ∃ n t,
      main_loop sample_digest { count := false, quiet := false } sample_files
          (table_create 1024 0) 0 { stdout := [], digested := [] }
        = .ok (.finished n t
            { stdout := duplicate_report sample_digest [] sample_files
              digested := sample_files }) ∧
      (∀ b, ∀ p ∈ t.buckets b,
        ∃ g, earliest sample_digest sample_files p.key = some g ∧ p.value = .string g) ∧
      (∀ d : CString, d.length ≤ INT_MAX →
        table_search t d = .ok ((earliest sample_digest sample_files d).map Value.string)) ∧
      (∀ pre f post g, sample_files = pre ++ f :: post →
        earliest sample_digest pre (sample_digest f).key = some g →
        ∃ n0 t0 w0,
          main_loop sample_digest { count := false, quiet := false } pre (table_create 1024 0) 0
              { stdout := [], digested := [] } = .ok (.finished n0 t0 w0) ∧
          check_file sample_digest f t0 { count := false, quiet := false } w0
            = .ok (.returned 1 t0
                { stdout := w0.stdout ++ duplicate_line f g
                  digested := w0.digested ++ [f] })) :=
  ⟨⟨by decide, by decide, by decide⟩,
    first_occurrence_wins 1024 sample_digest (by decide) (by decide) sample_files (by decide)⟩

/-- C7 (count total). For `N` files with successfully computed digests that take
`K` distinct values, the argument loop started on the table `main` creates ends,
in every mode that is not quiet, with `dupCount = N - K`, the sum of the values
`check_file` returned; and when the flags select count-only mode `main` prints
that number on a line of its own and exits with status 0. -/
theorem count_total (D : Nat) (hf : CString → Digest) (h0 : 0 < D) (h1 : D ≤ 2 ^ 31)
    (argv files : List CString)
    (hparse : parse_flags argv { count := false, quiet := false }
      = .ok (.parsed { count := true, quiet := false } files))
    (hall : ∀ p ∈ files, (hf p).computed) :
    (∀ options : Options, options.quiet = false →
      ∃ t w, main_loop hf options files (table_create D 0) 0 { stdout := [], digested := [] }
        = .ok (.finished
            (files.length - (files.map (fun p => (hf p).key)).toFinset.card) t w)) ∧
    main D hf argv
      = .ok (0,
          { stdout := decimal ((files.length
                - (files.map (fun p => (hf p).key)).toFinset.card : Nat) : Int) ++ [(10 : Byte)]
            digested := files }) := by
  have hcount := duplicate_count_add hf files []
  simp only [List.nil_append, List.map_nil, List.toFinset_nil, Finset.card_empty,
    Nat.add_zero] at hcount
  have hn : duplicate_count hf [] files
      = files.length - (files.map (fun p => (hf p).key)).toFinset.card := by omega
  constructor
  · intro options hq
    obtain ⟨t, hrun, _⟩ := main_loop_not_quiet D hf h0 h1 options hq files []
      (table_create D 0) 0 { stdout := [], digested := [] } (indexes_create D hf) hall
    rw [Nat.zero_add, hn] at hrun
    exact ⟨t, _, hrun⟩
  · obtain ⟨t, hrun, _⟩ := main_loop_not_quiet D hf h0 h1 { count := true, quiet := false } rfl
      files [] (table_create D 0) 0 { stdout := [], digested := [] } (indexes_create D hf) hall
    rw [Nat.zero_add, hn] at hrun
    have hargc : ¬ argv.length + 1 < 2 := by
      cases argv with
      | nil => exact absurd hparse (by simp [parse_flags])
      | cons a rest => simp
    unfold main
    simp only [hargc, if_false, hparse, hrun]
    simp

theorem count_total_witness :
    (0 < 1024 ∧ 1024 ≤ 2 ^ 31 ∧
      parse_flags ([45, 99] :: sample_files) { count := false, quiet := false }
        = .ok (.parsed { count := true, quiet := false } sample_files) ∧
      ∀ p ∈ sample_files, (sample_digest p).computed) ∧
    (∀ options : Options, options.quiet = false →
      ∃ t w, main_loop sample_digest options sample_files (table_create 1024 0) 0
          { stdout := [], digested := [] }
        = .ok (.finished (sample_files.length
            - (sample_files.map (fun p => (sample_digest p).key)).toFinset.card) t w)) ∧
    main 1024 sample_digest ([45, 99] :: sample_files)
      = .ok (0,
          { stdout := decimal ((sample_files.length
                - (sample_files.map (fun p => (sample_digest p).key)).toFinset.card : Nat) : Int)
              ++ [(10 : Byte)]
            digested := sample_files }) :=
  ⟨⟨by decide, by decide, by decide, by decide⟩,
    count_total 1024 sample_digest (by decide) (by decide) ([45, 99] :: sample_files)
      sample_files (by decide) (by decide)⟩

/-- C9 (quiet mode). When the flags set quiet, whatever the count flag, and the
digests are computed successfully: if the path arguments are `pre ++ f :: post`
with the digest keys of `pre` pairwise distinct and the key of `f` among them,
`main` exits with status 0 after handing exactly `pre ++ [f]` to
`hash_from_file`, with nothing written; if no digest key repeats, every argument
is handed to `hash_from_file`, nothing is written and the exit status is 1. -/
theorem quiet_short_circuit (D : Nat) (hf : CString → Digest) (h0 : 0 < D) (h1 : D ≤ 2 ^ 31)
    (count : Bool) (argv args : List CString)
    (hparse : parse_flags argv { count := false, quiet := false }
      = .ok (.parsed { count := count, quiet := true } args))
    (hall : ∀ p ∈ args, (hf p).computed) :
    (∀ pre f post, args = pre ++ f :: post →
      (pre.map (fun p => (hf p).key)).Nodup →
      (hf f).key ∈ pre.map (fun p => (hf p).key) →
      main D hf argv = .ok (0, { stdout := [], digested := pre ++ [f] })) ∧
    ((args.map (fun p => (hf p).key)).Nodup →
      main D hf argv = .ok (1, { stdout := [], digested := args })) := by
  have hargc : ¬ argv.length + 1 < 2 := by
    cases argv with
    | nil => exact absurd hparse (by simp [parse_flags])
    | cons a rest => simp
  constructor
  · intro pre f post hargs hnd hmem
    have hpre : ∀ p ∈ pre, (hf p).computed := fun p hp =>
      hall p (by rw [hargs]; exact List.mem_append_left _ hp)
    have hf1 : (hf f).computed := hall f (by rw [hargs]; simp)
    obtain ⟨t1, hrun, hidx⟩ := main_loop_quiet_fresh D hf h0 h1 { count := count, quiet := true }
      pre [] (table_create D 0) 0 { stdout := [], digested := [] } (indexes_create D hf) hpre
      (by simpa using hnd)
    simp only [List.nil_append] at hrun hidx
    cases hg : earliest hf pre (hf f).key with
    | none =>
      rw [earliest_eq_none_iff] at hg
      exact absurd hmem hg
    | some g =>
      have hstep := check_file_hit D hf t1 pre h0 h1 hidx f g hf1 hg
        { count := count, quiet := true } { stdout := [], digested := pre }
      simp only [if_true] at hstep
      unfold main
      simp only [hargc, if_false, hparse]
      rw [hargs, main_loop_append hf _ pre (f :: post) _ _ _ _ _ _ hrun]
      simp only [main_loop, hstep]
  · intro hnd
    obtain ⟨t1, hrun, _⟩ := main_loop_quiet_fresh D hf h0 h1 { count := count, quiet := true }
      args [] (table_create D 0) 0 { stdout := [], digested := [] } (indexes_create D hf) hall
      (by simpa using hnd)
    simp only [List.nil_append] at hrun
    unfold main
    simp only [hargc, if_false, hparse, hrun]
    simp

theorem quiet_short_circuit_witness :
    (0 < 1024 ∧ 1024 ≤ 2 ^ 31 ∧
      parse_flags ([45, 99] :: [45, 113] :: (sample_files ++ [[99]]))
          { count := false, quiet := false }
        = .ok (.parsed { count := true, quiet := true } (sample_files ++ [[99]])) ∧
      ∀ p ∈ sample_files ++ [[99]], (sample_digest p).computed) ∧
    (∀ pre f post, sample_files ++ [[99]] = pre ++ f :: post →
      (pre.map (fun p => (sample_digest p).key)).Nodup →
      (sample_digest f).key ∈ pre.map (fun p => (sample_digest p).key) →
      main 1024 sample_digest ([45, 99] :: [45, 113] :: (sample_files ++ [[99]]))
        = .ok (0, { stdout := [], digested := pre ++ [f] })) ∧
    (((sample_files ++ [[99]]).map (fun p => (sample_digest p).key)).Nodup →
      main 1024 sample_digest ([45, 99] :: [45, 113] :: (sample_files ++ [[99]]))
        = .ok (1, { stdout := [], digested := sample_files ++ [[99]] })) :=
  ⟨⟨by decide, by decide, by decide, by decide⟩,
    quiet_short_circuit 1024 sample_digest (by decide) (by decide) true
      ([45, 99] :: [45, 113] :: (sample_files ++ [[99]])) (sample_files ++ [[99]])
      (by decide) (by decide)⟩

theorem table_search_of_capacity (t1 t : Table) (hcap : t1.capacity = t.capacity)
    (ht : t.indexable) (key : CString) (hk : key.length ≤ INT_MAX) :
    table_search t1 key = .ok (search_chain key (t1.buckets (t.home key))) := by
  have hix : t1.indexable := by
    unfold Table.indexable; rw [hcap]; exact ht
  rw [table_search_ok t1 key hix hk]
  unfold Table.home
  rw [hcap]

/-- C8 (one step of the scan, modes that are not quiet). For every table the scan
can hold and every file whose digest key `d` is computed successfully,
`check_file` returns; it returns 1 exactly when `d` was a key of the table before
the call and 0 exactly when it was not; and on a miss `table_search` of `d` in the
table left behind yields this file's path and `size` has grown by one. -/
theorem check_file_contract (D : Nat) (hf : CString → Digest) (h0 : 0 < D) (h1 : D ≤ 2 ^ 31)
    (t : Table) (hreach : ScanTable D hf t) (path : CString) (hc : (hf path).computed)
    (options : Options) (hq : options.quiet = false) (w : Process) :
    ∃ n t1 w1, check_file hf path t options w = .ok (.returned n t1 w1) ∧
      (n = 1 ↔ t.has_key (hf path).key) ∧
      (n = 0 ↔ ¬ t.has_key (hf path).key) ∧
      (¬ t.has_key (hf path).key →
        table_search t1 (hf path).key = .ok (some (.string path)) ∧ t1.size = t.size + 1) := by
  obtain ⟨hcap, hwf, hstr⟩ := hreach.inv h0 h1
  have hix : t.indexable := by
    unfold Table.indexable; rw [hcap]; exact ⟨h0, h1⟩
  have hlen := computed_length hc
  have hs := table_search_ok t (hf path).key hix hlen
  have hkey := Table.WF.has_key_iff t hwf (hf path).key
  cases hv : search_chain (hf path).key (t.buckets (t.home (hf path).key)) with
  | some v =>
    have hhas : t.has_key (hf path).key := by rw [hkey, hv]; rfl
    obtain ⟨p, hp, _, hpv⟩ := search_chain_mem _ _ _ hv
    have hty := hwf.typed _ p hp
    rw [hstr _ p hp, hpv] at hty
    cases v with
    | number m => exact PType.noConfusion hty
    | string s =>
      rw [hv] at hs
      rcases options with ⟨c, q⟩
      simp only at hq
      subst hq
      have hcf : check_file hf path t { count := c, quiet := false } w
          = .ok (.returned 1 t
              { stdout := if c then w.stdout else w.stdout ++ duplicate_line path s
                digested := w.digested ++ [path] }) := by
        unfold check_file
        simp only [hs, hc.1]
        cases c <;> rfl
      refine ⟨1, t, _, hcf, ?_, ?_, ?_⟩
      · simp [hhas]
      · simp [hhas]
      · intro hno; exact absurd hhas hno
  | none =>
    have hhas : ¬ t.has_key (hf path).key := by rw [hkey, hv]; simp
    rw [hv] at hs
    have hins := table_insert_ok t (hf path).key (.string path) .STRING hix hlen rfl
    have hcf : check_file hf path t options w
        = .ok (.returned 0
            { buckets := Function.update t.buckets (t.home (hf path).key)
                (chain_put (hf path).key (.string path) .STRING
                  (t.buckets (t.home (hf path).key)))
              capacity := t.capacity
              size := if (search_chain (hf path).key
                  (t.buckets (t.home (hf path).key))).isNone then t.size + 1 else t.size }
            { stdout := w.stdout, digested := w.digested ++ [path] }) := by
      unfold check_file
      simp only [hs, hins]
    refine ⟨0, _, _, hcf, ?_, ?_, ?_⟩
    · simp [hhas]
    · simp [hhas]
    · intro _
      constructor
      · rw [table_search_of_capacity _ t (by rfl) hix _ hlen]
        simp only [Function.update_same, search_chain_put, if_true]
      · show (if _ then t.size + 1 else t.size) = _
        rw [hv]; rfl

theorem check_file_contract_witness :
    (0 < 1024 ∧ 1024 ≤ 2 ^ 31 ∧ ScanTable 1024 sample_digest (table_create 1024 0) ∧
      (sample_digest [97, 49]).computed ∧
      ({ count := false, quiet := false } : Options).quiet = false) ∧
    ∃ n t1 w1,
      check_file sample_digest [97, 49] (table_create 1024 0) { count := false, quiet := false }
          { stdout := [], digested := [] } = .ok (.returned n t1 w1) ∧
      (n = 1 ↔ (table_create 1024 0).has_key (sample_digest [97, 49]).key) ∧
      (n = 0 ↔ ¬ (table_create 1024 0).has_key (sample_digest [97, 49]).key) ∧
      (¬ (table_create 1024 0).has_key (sample_digest [97, 49]).key →
        table_search t1 (sample_digest [97, 49]).key = .ok (some (.string [97, 49])) ∧
          t1.size = (table_create 1024 0).size + 1) :=
  ⟨⟨by decide, by decide, ScanTable.created, by decide, rfl⟩,
    check_file_contract 1024 sample_digest (by decide) (by decide) (table_create 1024 0)
      ScanTable.created [97, 49] (by decide) { count := false, quiet := false } rfl
      { stdout := [], digested := [] }⟩

/-! ## Formatting -/

theorem in_bucket_chain_put (capacity b : Nat) (key : CString) (value : Value) (type : PType)
    (l : List Pair) :
    in_bucket capacity b (chain_put key value type l)
      = if hash_value key % capacity = b then chain_put key value type (in_bucket capacity b l)
        else in_bucket capacity b l := by
  unfold in_bucket
  induction l with
  | nil =>
    by_cases hb : hash_value key % capacity = b
    · simp [chain_put, hb]
    · simp [chain_put, hb]
  | cons p rest ih =>
    by_cases hp : p.key = key
    · by_cases hb : hash_value key % capacity = b
      · simp [chain_put, hp, hb, List.filter_cons]
      · simp [chain_put, hp, hb, List.filter_cons]
    · by_cases hb : hash_value key % capacity = b
      · rw [if_pos hb] at ih
        by_cases hpb : hash_value p.key % capacity = b
        · simp [chain_put, hp, hb, hpb, List.filter_cons, ih]
        · simp [chain_put, hp, hb, hpb, List.filter_cons, ih]
      · rw [if_neg hb] at ih
        by_cases hpb : hash_value p.key % capacity = b
        · simp [chain_put, hp, hb, hpb, List.filter_cons, ih]
        · simp [chain_put, hp, hb, hpb, List.filter_cons, ih]

theorem in_bucket_remove_none (capacity : Nat) (key : CString) (l : List Pair)
    (h : remove_chain key l = none) :
    remove_chain key (in_bucket capacity (hash_value key % capacity) l) = none := by
  rw [remove_chain_eq_none_iff, search_chain_eq_none_iff] at *
  intro p hp
  unfold in_bucket at hp
  exact h p (List.mem_filter.mp hp).1

theorem in_bucket_remove_some (capacity : Nat) (key : CString) (l r : List Pair)
    (h : remove_chain key l = some r) :
    remove_chain key (in_bucket capacity (hash_value key % capacity) l)
        = some (in_bucket capacity (hash_value key % capacity) r) ∧
      ∀ b, b ≠ hash_value key % capacity → in_bucket capacity b r = in_bucket capacity b l := by
  unfold in_bucket
  induction l generalizing r with
  | nil => simp [remove_chain] at h
  | cons p rest ih =>
    by_cases hp : p.key = key
    · simp only [remove_chain, hp, if_true, Option.some.injEq] at h
      subst h
      constructor
      · simp [List.filter_cons, hp, remove_chain]
      · intro b hb
        have : ¬ hash_value p.key % capacity = b := by
          rw [hp]; exact fun e => hb e.symm
        simp [List.filter_cons, this]
    · simp only [remove_chain, hp, if_false] at h
      cases hr : remove_chain key rest with
      | none => simp [hr] at h
      | some r2 =>
        simp only [hr, Option.some.injEq] at h
        subst h
        obtain ⟨ih1, ih2⟩ := ih r2 hr
        constructor
        · by_cases hpb : hash_value p.key % capacity = hash_value key % capacity
          · simp [List.filter_cons, hpb, remove_chain, hp, ih1]
          · simp [List.filter_cons, hpb, ih1]
        · intro b hb
          by_cases hpb : hash_value p.key % capacity = b
          · simp [List.filter_cons, hpb, ih2 b hb]
          · simp [List.filter_cons, hpb, ih2 b hb]

theorem live_step_typed (l : List Pair) (op : Op) (hop : op.valid)
    (hl : ∀ p ∈ l, p.value.type = p.type) : ∀ p ∈ live_step l op, p.value.type = p.type := by
  intro p hp
  cases op with
  | insert key value type =>
    rcases mem_chain_put _ _ _ _ _ hp with h | h
    · exact hl p h
    · subst h; exact hop.2
  | remove key =>
    simp only [live_step] at hp
    cases hr : remove_chain key l with
    | none => rw [hr] at hp; exact hl p hp
    | some r =>
      rw [hr] at hp
      exact hl p ((remove_chain_sublist _ _ _ hr).1.subset hp)

theorem live_step_nodup (l : List Pair) (op : Op) (hl : (l.map Pair.key).Nodup) :
    ((live_step l op).map Pair.key).Nodup := by
  cases op with
  | insert key value type => exact chain_put_nodup _ _ _ _ hl
  | remove key =>
    simp only [live_step]
    cases hr : remove_chain key l with
    | none => exact hl
    | some r => exact hl.sublist ((remove_chain_sublist _ _ _ hr).1.map _)

/-- One call keeps the chains equal to the live entries sorted into buckets. -/
theorem apply_op_live (t : Table) (l : List Pair) (op : Op) (ht : t.indexable)
    (hop : op.valid) (hrep : ∀ b, t.buckets b = in_bucket t.capacity b l) :
    ∃ t1, apply_op t op = .ok t1 ∧ t1.capacity = t.capacity ∧
      ∀ b, t1.buckets b = in_bucket t.capacity b (live_step l op) := by
  cases op with
  | insert key value type =>
    refine ⟨_, table_insert_ok t key value type ht hop.1 hop.2, rfl, ?_⟩
    intro b
    simp only [live_step]
    rw [in_bucket_chain_put]
    by_cases hb : hash_value key % t.capacity = b
    · subst hb
      rw [if_pos rfl]
      show Function.update t.buckets (t.home key) _ (t.home key) = _
      rw [Function.update_same, hrep]
      rfl
    · rw [if_neg hb]
      have hb2 : b ≠ t.home key := fun e => hb e.symm
      show Function.update t.buckets (t.home key) _ b = _
      rw [Function.update_noteq hb2, hrep]
  | remove key =>
    have hrm := table_remove_ok t key ht hop
    rw [hrep (t.home key)] at hrm
    simp only [apply_op, live_step]
    cases hr : remove_chain key l with
    | none =>
      have h2 := in_bucket_remove_none t.capacity key l hr
      rw [show t.home key = hash_value key % t.capacity from rfl] at hrm
      rw [h2] at hrm
      refine ⟨t, ?_, rfl, ?_⟩
      · rw [hrm]
      · intro b; simpa using hrep b
    | some r =>
      obtain ⟨h2, h3⟩ := in_bucket_remove_some t.capacity key l r hr
      rw [show t.home key = hash_value key % t.capacity from rfl] at hrm
      rw [h2] at hrm
      refine ⟨{ buckets := Function.update t.buckets (hash_value key % t.capacity)
                  (in_bucket t.capacity (hash_value key % t.capacity) r)
                capacity := t.capacity
                size := t.size - 1 }, ?_, rfl, ?_⟩
      · rw [hrm]
      · intro b
        simp only [Option.getD_some]
        by_cases hb : b = hash_value key % t.capacity
        · subst hb
          show Function.update t.buckets _ _ _ = _
          rw [Function.update_same]
        · show Function.update t.buckets _ _ _ = _
          rw [Function.update_noteq hb, hrep, h3 b hb]

theorem run_ops_live (ops : List Op) :
    ∀ (t : Table) (l : List Pair), t.indexable → (∀ op ∈ ops, op.valid) →
      (∀ b, t.buckets b = in_bucket t.capacity b l) →
      ∃ t1, run_ops t ops = .ok t1 ∧ t1.capacity = t.capacity ∧
        ∀ b, t1.buckets b = in_bucket t.capacity b (ops.foldl live_step l) := by
  induction ops with
  | nil =>
    intro t l _ _ hrep
    exact ⟨t, rfl, rfl, hrep⟩
  | cons op rest ih =>
    intro t l ht hops hrep
    obtain ⟨t1, h1, hcap1, hrep1⟩ := apply_op_live t l op ht
      (hops op (List.mem_cons_self _ _)) hrep
    have ht1 : t1.indexable := by
      unfold Table.indexable; rw [hcap1]; exact ht
    rw [← hcap1] at hrep1
    obtain ⟨t2, h2, hcap2, hrep2⟩ := ih t1 (live_step l op) ht1
      (fun o ho => hops o (List.mem_cons_of_mem _ ho)) hrep1
    refine ⟨t2, ?_, hcap2.trans hcap1, ?_⟩
    · simp only [run_ops, h1, h2]
    · intro b
      rw [hrep2 b, hcap1]
      rfl

theorem pair_format_typed (p : Pair) (hp : p.value.type = p.type) :
    pair_format p = .ok (line_of p) := by
  rcases p with ⟨k, v, ty⟩
  simp only at hp
  subst hp
  cases v <;> rfl

theorem format_chain_typed (c : List Pair) (hc : ∀ p ∈ c, p.value.type = p.type) :
    format_chain c = .ok (c.flatMap line_of) := by
  induction c with
  | nil => rfl
  | cons p rest ih =>
    have h1 := pair_format_typed p (hc p (List.mem_cons_self _ _))
    have h2 := ih (fun q hq => hc q (List.mem_cons_of_mem _ hq))
    simp only [format_chain, h1, h2, List.flatMap_cons]

theorem format_buckets_typed (t : Table) (htyped : ∀ b, ∀ p ∈ t.buckets b, p.value.type = p.type)
    (n : Nat) : ∀ i, i + n ≤ INT_MAX →
      format_buckets t n i
        = .ok ((List.range' i n).flatMap (fun b => (t.buckets b).flatMap line_of)) := by
  induction n with
  | zero => intro i _; rfl
  | succ n ih =>
    intro i hi
    have hne : i ≠ INT_MAX := by omega
    have h1 := format_chain_typed (t.buckets i) (htyped i)
    have h2 := ih (i + 1) (by omega)
    simp only [format_buckets, h1, hne, if_false, h2, List.range'_succ, List.flatMap_cons]

theorem live_entries_typed (ops : List Op) (hops : ∀ op ∈ ops, op.valid) :
    ∀ l : List Pair, (∀ p ∈ l, p.value.type = p.type) →
      ∀ p ∈ ops.foldl live_step l, p.value.type = p.type := by
  induction ops with
  | nil => intro l hl; exact hl
  | cons op rest ih =>
    intro l hl
    exact ih (fun o ho => hops o (List.mem_cons_of_mem _ ho)) _
      (live_step_typed l op (hops op (List.mem_cons_self _ _)) hl)

theorem live_entries_nodup (ops : List Op) :
    ∀ l : List Pair, (l.map Pair.key).Nodup → ((ops.foldl live_step l).map Pair.key).Nodup := by
  induction ops with
  | nil => intro l hl; exact hl
  | cons op rest ih =>
    intro l hl
    exact ih _ (live_step_nodup l op hl)

/-- C10 as amended (format). For a table created with a capacity of at most
`INT_MAX` and then driven by inserts and removes whose keys are shorter than
`2 ^ 31` bytes and whose values hold the member their type names: every call
succeeds; each chain is the list of live entries of its bucket in the order in
which their nodes were created (an insert of an absent key appends, an update
keeps the place, a key removed and inserted again goes to the end); no key
occurs twice; and `table_format` writes, bucket by bucket from 0 to
`capacity - 1` and along each chain, one line `key TAB value NEWLINE` per live
entry and nothing else, a number in signed decimal and a string verbatim. -/
theorem format_in_creation_order (D c : Nat) (hpos : 0 < (table_create D c).capacity)
    (hmax : (table_create D c).capacity ≤ INT_MAX) (ops : List Op)
    (hops : ∀ op ∈ ops, op.valid) :
    ∃ t, run_ops (table_create D c) ops = .ok t ∧
      t.capacity = (table_create D c).capacity ∧
      (∀ b, t.buckets b = in_bucket t.capacity b (live_entries ops)) ∧
      ((live_entries ops).map Pair.key).Nodup ∧
      table_format t = .ok (expected_format t.capacity (live_entries ops)) := by
  have hix : (table_create D c).indexable := by
    refine ⟨hpos, ?_⟩
    unfold INT_MAX at hmax
    omega
  obtain ⟨t, hrun, hcap, hrep⟩ := run_ops_live ops (table_create D c) [] hix hops
    (by intro b; rfl)
  have hrep2 : ∀ b, t.buckets b = in_bucket t.capacity b (live_entries ops) := by
    intro b; rw [hrep b, hcap]; rfl
  have htyped := live_entries_typed ops hops [] (by simp)
  refine ⟨t, hrun, hcap, hrep2, live_entries_nodup ops [] (by simp), ?_⟩
  have hty : ∀ b, ∀ p ∈ t.buckets b, p.value.type = p.type := by
    intro b p hp
    rw [hrep2 b] at hp
    exact htyped p (List.mem_filter.mp hp).1
  unfold table_format
  rw [format_buckets_typed t hty t.capacity 0 (by rw [hcap]; omega)]
  unfold expected_format
  rw [List.range_eq_range']
  congr 1
  apply List.flatMap_congr
  intro b _
  rw [hrep2 b]

theorem format_in_creation_order_witness :
    (0 < (table_create 1024 1).capacity ∧ (table_create 1024 1).capacity ≤ INT_MAX ∧
      ∀ op ∈ reinsert_ops, op.valid) ∧
    ∃ t, run_ops (table_create 1024 1) reinsert_ops = .ok t ∧
      t.capacity = (table_create 1024 1).capacity ∧
      (∀ b, t.buckets b = in_bucket t.capacity b (live_entries reinsert_ops)) ∧
      ((live_entries reinsert_ops).map Pair.key).Nodup ∧
      table_format t = .ok (expected_format t.capacity (live_entries reinsert_ops)) :=
  ⟨⟨by decide, by decide, by decide⟩,
    format_in_creation_order 1024 1 (by decide) (by decide) reinsert_ops (by decide)⟩

/-- C10 as stated fails: after insert `a`, insert `b`, remove `a`, insert `a` on a
table with one bucket, `table_format` writes the line of `b` before the line of
`a`, while the order of first insertion puts `a` before `b`. -/
theorem format_first_insert_counterexample :
    ∃ t, run_ops (table_create 1024 1) reinsert_ops = .ok t ∧
      table_format t = .ok [98, 9, 50, 10, 97, 9, 51, 10] ∧
      expected_format t.capacity (live_by_first_insert reinsert_ops)
        = [97, 9, 51, 10, 98, 9, 50, 10] ∧
      table_format t ≠ .ok (expected_format t.capacity (live_by_first_insert reinsert_ops)) :=
  ⟨_, rfl, by decide, by decide, by decide⟩

/-! ## Evaluations outside the `int` range and on a failed digest -/

/-- C1 at a failing input. On a fresh table of `2 ^ 32` buckets the search for
the empty key computes `hash mod capacity = 2216829733`, stores it in an `int`
as `-2078137563` and indexes the bucket array with it. -/
theorem search_outside_bucket_array :
    hash_from_data [] = .ok 14695981039346656037 ∧
    14695981039346656037 % 4294967296 = 2216829733 ∧
    to_int 2216829733 = -2078137563 ∧
    table_search (table_create 1024 4294967296) [] = .error .outOfBounds := by
  decide

/-- C2 at a failing input. On a fresh table of `2 ^ 32` buckets the first insert,
of the empty key, indexes the bucket array at `-2078137563`. -/
theorem insert_outside_bucket_array :
    bucket (table_create 1024 4294967296) [] = .error .outOfBounds ∧
    table_insert (table_create 1024 4294967296) [] (.number 1) .NUMBER
      = .error .outOfBounds :=
  ⟨by decide, rfl⟩

/-- C5 at a failing input. On a fresh table of `2 ^ 32` buckets the insert of the
key `a` stores `hash mod capacity = 2248273036` in an `int` as `-2046694260`. -/
theorem update_outside_bucket_array :
    to_int (12638187200555641996 % 4294967296) = -2046694260 ∧
    hash_from_data [97] = .ok 12638187200555641996 ∧
    table_insert (table_create 1024 4294967296) [97] (.number 1) .NUMBER
      = .error .outOfBounds :=
  ⟨by decide, by decide, rfl⟩

/-- C6 at a failing input. On a fresh table of `2 ^ 32` buckets the removal of the
absent key `b` stores `hash mod capacity = 2248274341` in an `int` as
`-2046692955` and indexes the bucket array with it. -/
theorem remove_outside_bucket_array :
    hash_from_data [98] = .ok 12638190499090526629 ∧
    to_int (12638190499090526629 % 4294967296) = -2046692955 ∧
    table_remove (table_create 1024 4294967296) [98] = .error .outOfBounds :=
  ⟨by decide, by decide, rfl⟩

/-- C4 at a failing input. When `hash_from_file` fails and the buffer holds `x`,
`check_file` on the fresh table returns 0 and leaves a table of size 1 in which
`x` maps to the path of the unreadable file. When the buffer still holds the key
of the file before, the entry of that file is overwritten: for the arguments
`a1`, `b`, `a2` with `b` unreadable, default mode reports `a2` as a duplicate of
`b`. -/
theorem failed_digest_is_inserted :
    (∃ t w, check_file unreadable [109] (table_create 1024 0) { count := false, quiet := false }
        { stdout := [], digested := [] } = .ok (.returned 0 t w) ∧
      (table_create 1024 0).size = 0 ∧ t.size = 1 ∧
      table_search (table_create 1024 0) [120] = .ok none ∧
      table_search t [120] = .ok (some (.string [109]))) ∧
    main 1024 stale_digest sample_files
      = .ok (0, { stdout := [97, 50] ++ is_duplicate_of ++ [98] ++ [10]
                  digested := sample_files }) :=
  ⟨⟨_, _, rfl, rfl, rfl, by decide, by decide⟩, by decide⟩

/-! ## The table interface on indexable tables -/

theorem search_chain_in_bucket (capacity : Nat) (key : CString) (l : List Pair) :
    search_chain key (in_bucket capacity (hash_value key % capacity) l) = search_chain key l := by
  unfold in_bucket
  induction l with
  | nil => rfl
  | cons p rest ih =>
    by_cases hp : p.key = key
    · simp [List.filter_cons, hp, search_chain]
    · by_cases hb : hash_value p.key % capacity = hash_value key % capacity
      · simp [List.filter_cons, hb, search_chain, hp, ih]
      · simp [List.filter_cons, hb, search_chain, hp, ih]

theorem search_live_step (key : CString) (l : List Pair) (op : Op)
    (hnd : (l.map Pair.key).Nodup) :
    search_chain key (live_step l op)
      = match op with
        | .insert k v _ => if k = key then some v else search_chain key l
        | .remove k => if k = key then none else search_chain key l := by
  cases op with
  | insert k v ty =>
    simp only [live_step, search_chain_put]
    by_cases h : key = k
    · subst h; simp
    · have h2 : k ≠ key := fun e => h e.symm
      simp [h, h2]
  | remove k =>
    simp only [live_step]
    cases hr : remove_chain k l with
    | none =>
      simp only [Option.getD_none]
      by_cases h : k = key
      · subst h
        rw [if_pos rfl, ← remove_chain_eq_none_iff, hr]
      · rw [if_neg h]
    | some r =>
      simp only [Option.getD_some]
      by_cases h : k = key
      · subst h
        rw [if_pos rfl]
        exact search_chain_remove_self _ _ _ hnd hr
      · rw [if_neg h]
        exact search_chain_remove_other _ _ _ _ hr (fun e => h e.symm)

theorem search_live_entries (key : CString) (ops : List Op) :
    ∀ l : List Pair, (l.map Pair.key).Nodup →
      search_chain key (ops.foldl live_step l) = last_write key ops (search_chain key l) := by
  induction ops with
  | nil => intro l _; rfl
  | cons op rest ih =>
    intro l hnd
    simp only [List.foldl_cons, last_write]
    rw [ih _ (live_step_nodup l op hnd), search_live_step key l op hnd]
    cases op <;> rfl

/-- Lookup on tables of at most `2 ^ 31` buckets: after any valid calls on a
created table, `table_search` returns the value of the most recent insert of the
key that no remove has followed, and `NULL` otherwise. -/
theorem lookup_after_ops (D c : Nat) (hix : (table_create D c).indexable) (ops : List Op)
    (hops : ∀ op ∈ ops, op.valid) :
    ∃ t, run_ops (table_create D c) ops = .ok t ∧
      ∀ key : CString, key.length ≤ INT_MAX →
        table_search t key = .ok (last_write key ops none) := by
  obtain ⟨t, hrun, hcap, hrep⟩ := run_ops_live ops (table_create D c) [] hix hops
    (by intro b; rfl)
  refine ⟨t, hrun, ?_⟩
  intro key hk
  rw [table_search_of_capacity t (table_create D c) hcap hix key hk, hrep]
  unfold Table.home
  rw [search_chain_in_bucket, search_live_entries key ops [] (by simp)]
  rfl

theorem apply_op_size (t : Table) (l : List Pair) (op : Op) (ht : t.indexable)
    (hop : op.valid) (hrep : ∀ b, t.buckets b = in_bucket t.capacity b l)
    (hsize : t.size = l.length) (t1 : Table) (h : apply_op t op = .ok t1) :
    t1.size = (live_step l op).length := by
  cases op with
  | insert key value type =>
    simp only [apply_op] at h
    rw [table_insert_ok t key value type ht hop.1 hop.2] at h
    simp only [Except.ok.injEq] at h
    subst h
    simp only [live_step, chain_put_length]
    rw [hrep (t.home key)]
    unfold Table.home
    rw [search_chain_in_bucket, hsize]
  | remove key =>
    have hrm := table_remove_ok t key ht hop
    rw [hrep (t.home key)] at hrm
    rw [show t.home key = hash_value key % t.capacity from rfl] at hrm
    simp only [apply_op, hrm] at h
    simp only [live_step]
    cases hr : remove_chain key l with
    | none =>
      rw [in_bucket_remove_none t.capacity key l hr] at h
      simp only [Except.ok.injEq] at h
      subst h
      simpa using hsize
    | some r =>
      rw [(in_bucket_remove_some t.capacity key l r hr).1] at h
      simp only [Except.ok.injEq] at h
      subst h
      have := (remove_chain_sublist _ _ _ hr).2
      simp only [Option.getD_some]
      omega

theorem run_ops_size (ops : List Op) :
    ∀ (t : Table) (l : List Pair), t.indexable → (∀ op ∈ ops, op.valid) →
      (∀ b, t.buckets b = in_bucket t.capacity b l) → t.size = l.length →
      ∀ t1, run_ops t ops = .ok t1 → t1.size = (ops.foldl live_step l).length := by
  induction ops with
  | nil =>
    intro t l _ _ _ hsize t1 h
    simp only [run_ops, Except.ok.injEq] at h
    subst h
    exact hsize
  | cons op rest ih =>
    intro t l ht hops hrep hsize t2 h
    have hop := hops op (List.mem_cons_self _ _)
    obtain ⟨t1, h1, hcap1, hrep1⟩ := apply_op_live t l op ht hop hrep
    have hs1 := apply_op_size t l op ht hop hrep hsize t1 h1
    have ht1 : t1.indexable := by
      unfold Table.indexable; rw [hcap1]; exact ht
    rw [← hcap1] at hrep1
    simp only [run_ops, h1] at h
    exact ih t1 (live_step l op) ht1 (fun o ho => hops o (List.mem_cons_of_mem _ ho))
      hrep1 hs1 t2 h

theorem live_keys_inserts (ops : List Op) (honly : inserts_only ops) :
    ∀ l : List Pair,
      ((ops.foldl live_step l).map Pair.key).toFinset
        = (l.map Pair.key).toFinset ∪ (inserted_keys ops).toFinset := by
  induction ops with
  | nil => intro l; simp [inserted_keys]
  | cons op rest ih =>
    intro l
    obtain ⟨k, v, ty, rfl⟩ := honly _ (List.mem_cons_self _ _)
    have hrest : inserts_only rest := fun o ho => honly o (List.mem_cons_of_mem _ ho)
    simp only [List.foldl_cons, inserted_keys, List.toFinset_cons]
    rw [ih hrest, show live_step l (.insert k v ty) = chain_put k v ty l from rfl, chain_put_keys]
    cases hs : search_chain k l with
    | none =>
      simp only [Option.isNone_none, if_true, List.toFinset_append, List.toFinset_cons,
        List.toFinset_nil, insert_emptyc_eq]
      ext x
      simp only [Finset.mem_union, Finset.mem_insert, Finset.mem_singleton, List.mem_toFinset]
      tauto
    | some w =>
      have hmem : k ∈ l.map Pair.key := by
        rw [← search_chain_isSome_iff, hs]; rfl
      simp only [Option.isNone_some, Bool.false_eq_true, if_false]
      ext x
      simp only [Finset.mem_union, Finset.mem_insert, List.mem_toFinset]
      constructor
      · tauto
      · rintro (h | h | h)
        · exact Or.inl h
        · subst h; exact Or.inl hmem
        · exact Or.inr h

/-- Key uniqueness on tables of at most `2 ^ 31` buckets: after valid insert
calls on a created table the table is well formed, so no chain repeats a key and
every key sits in its own bucket, and `size` is the number of distinct keys of the
calls. -/
theorem unique_keys_after_inserts (D c : Nat) (hix : (table_create D c).indexable)
    (ops : List Op) (hops : ∀ op ∈ ops, op.valid) (honly : inserts_only ops) :
    ∃ t, run_ops (table_create D c) ops = .ok t ∧
      (∀ b, ((t.buckets b).map Pair.key).Nodup) ∧
      (∀ b, ∀ p ∈ t.buckets b, ∀ b2, ∀ q ∈ t.buckets b2, p.key = q.key → b = b2) ∧
      t.size = (inserted_keys ops).toFinset.card := by
  obtain ⟨t, hrun, hcap, hrep⟩ := run_ops_live ops (table_create D c) [] hix hops
    (by intro b; rfl)
  have hnd := live_entries_nodup ops [] (by simp)
  refine ⟨t, hrun, ?_, ?_, ?_⟩
  · intro b
    rw [hrep b]
    exact hnd.sublist ((List.filter_sublist _).map _)
  · intro b p hp b2 q hq hkey
    rw [hrep b] at hp
    rw [hrep b2] at hq
    have h1 := (List.mem_filter.mp hp).2
    have h2 := (List.mem_filter.mp hq).2
    simp only [decide_eq_true_eq] at h1 h2
    rw [← h1, ← h2, hkey]
  · rw [run_ops_size ops (table_create D c) [] hix hops (by intro b; rfl) rfl t hrun]
    have hcard := List.toFinset_card_of_nodup hnd
    rw [live_keys_inserts ops honly [], List.length_map] at hcard
    rw [← hcard]
    simp

theorem chain_put_mem_self (key : CString) (value : Value) (type : PType) (c : List Pair) :
    ({ key := key, value := value, type := type } : Pair) ∈ chain_put key value type c := by
  induction c with
  | nil => simp [chain_put]
  | cons p rest ih =>
    by_cases hp : p.key = key
    · simp [chain_put, hp]
    · simp only [chain_put, hp, if_false]
      exact List.mem_cons_of_mem _ ih

theorem eq_of_key_eq (c : List Pair) (hnd : (c.map Pair.key).Nodup) (p q : Pair)
    (hp : p ∈ c) (hq : q ∈ c) (hk : p.key = q.key) : p = q := by
  have h1 := search_chain_of_mem c hnd p hp
  have h2 := search_chain_of_mem c hnd q hq
  induction c with
  | nil => simp at hp
  | cons r rest ih =>
    simp only [List.map_cons, List.nodup_cons] at hnd
    rcases List.mem_cons.mp hp with rfl | hp2
    · rcases List.mem_cons.mp hq with rfl | hq2
      · rfl
      · exact absurd (hk ▸ List.mem_map_of_mem Pair.key hq2) hnd.1
    · rcases List.mem_cons.mp hq with rfl | hq2
      · exact absurd (hk ▸ List.mem_map_of_mem Pair.key hp2) hnd.1
      · exact ih hnd.2 hp2 hq2 (search_chain_of_mem rest hnd.2 p hp2)
          (search_chain_of_mem rest hnd.2 q hq2)

theorem table_insert_spec (t : Table) (key : CString) (value : Value) (type : PType)
    (ht : t.indexable) (hk : key.length ≤ INT_MAX) (hty : value.type = type) :
    ∃ t1, table_insert t key value type = .ok t1 ∧ t1.capacity = t.capacity ∧
      t1.buckets = Function.update t.buckets (t.home key)
        (chain_put key value type (t.buckets (t.home key))) ∧
      t1.size = (if (search_chain key (t.buckets (t.home key))).isNone
        then t.size + 1 else t.size) ∧
      (t.WF → t1.WF) :=
  ⟨_, table_insert_ok t key value type ht hk hty, rfl, rfl, rfl,
    table_insert_wf t key value type ht hty⟩

theorem Table.home_congr (t1 t : Table) (h : t1.capacity = t.capacity) (key : CString) :
    t1.home key = t.home key := by
  unfold Table.home
  rw [h]

/-- Update in place on tables of at most `2 ^ 31` buckets: two inserts of one key
into a well-formed table both succeed, the second leaves `size` as the first
left it, and afterwards the only node with that key carries the second value and
type. -/
theorem update_in_place (t : Table) (ht : t.indexable) (hwf : t.WF) (key : CString)
    (hk : key.length ≤ INT_MAX) (v1 v2 : Value) (ty1 ty2 : PType) (h1 : v1.type = ty1)
    (h2 : v2.type = ty2) :
    ∃ t1 t2, table_insert t key v1 ty1 = .ok t1 ∧ table_insert t1 key v2 ty2 = .ok t2 ∧
      t2.size = t1.size ∧
      table_search t2 key = .ok (some v2) ∧
      ({ key := key, value := v2, type := ty2 } : Pair) ∈ t2.buckets (t.home key) ∧
      ∀ b, ∀ p ∈ t2.buckets b, p.key = key → p = { key := key, value := v2, type := ty2 } := by
  obtain ⟨t1, hi1, hc1, hb1, _, hw1⟩ := table_insert_spec t key v1 ty1 ht hk h1
  have ht1 : t1.indexable := by
    unfold Table.indexable; rw [hc1]; exact ht
  obtain ⟨t2, hi2, hc2, hb2, hs2, hw2⟩ := table_insert_spec t1 key v2 ty2 ht1 hk h2
  have hwf2 := hw2 (hw1 hwf)
  have hhome1 := Table.home_congr t1 t hc1 key
  have hhome2 := Table.home_congr t2 t (hc2.trans hc1) key
  have hself : ({ key := key, value := v2, type := ty2 } : Pair) ∈ t2.buckets (t.home key) := by
    rw [hb2, hhome1, Function.update_same]
    exact chain_put_mem_self _ _ _ _
  refine ⟨t1, t2, hi1, hi2, ?_, ?_, hself, ?_⟩
  · rw [hs2, hb1, hhome1, Function.update_same, search_chain_put, if_pos rfl]
    rfl
  · rw [table_search_of_capacity t2 t (hc2.trans hc1) ht key hk, hb2, hhome1,
      Function.update_same, search_chain_put, if_pos rfl]
  · intro b p hp hpk
    have hb := (hwf2.placed b p hp).2
    have hbb : b = t.home key := by rw [← hb, hpk, hhome2]
    subst hbb
    exact eq_of_key_eq _ (hwf2.nodup (t.home key)) p _ hp hself hpk

/-- Removal on tables of at most `2 ^ 31` buckets: on a well-formed table the
removal of a present key returns true, after it the search for the key finds
nothing and `size` is one less; the removal of an absent key returns false and
leaves the table as it was. -/
theorem remove_effect (t : Table) (ht : t.indexable) (hwf : t.WF) (key : CString)
    (hk : key.length ≤ INT_MAX) :
    (t.has_key key →
      ∃ t1, table_remove t key = .ok (true, t1) ∧ table_search t1 key = .ok none ∧
        t1.size + 1 = t.size) ∧
    (¬ t.has_key key → table_remove t key = .ok (false, t)) := by
  have hrm := table_remove_ok t key ht hk
  have hkey := Table.WF.has_key_iff t hwf key
  constructor
  · intro hhas
    cases hr : remove_chain key (t.buckets (t.home key)) with
    | none =>
      rw [remove_chain_eq_none_iff] at hr
      rw [hkey, hr] at hhas
      exact absurd hhas (by simp)
    | some c =>
      rw [hr] at hrm
      refine ⟨_, hrm, ?_, ?_⟩
      · rw [table_search_of_capacity _ t (by rfl) ht key hk]
        simp only [Function.update_same]
        rw [search_chain_remove_self key _ c (hwf.nodup _) hr]
      · have hlen := (remove_chain_sublist _ _ _ hr).2
        have hb : t.home key ∈ Finset.range t.capacity :=
          Finset.mem_range.mpr (Nat.mod_lt _ ht.1)
        have hle := Finset.single_le_sum (f := fun b => (t.buckets b).length)
          (fun _ _ => Nat.zero_le _) hb
        have hc := hwf.counted
        simp only at hle
        show t.size - 1 + 1 = t.size
        omega
  · intro hno
    cases hr : remove_chain key (t.buckets (t.home key)) with
    | none => rw [hr] at hrm; exact hrm
    | some c =>
      have : search_chain key (t.buckets (t.home key)) ≠ none := by
        intro hnone
        rw [← remove_chain_eq_none_iff, hr] at hnone
        exact Option.noConfusion hnone
      rw [hkey] at hno
      exact absurd (Option.ne_none_iff_isSome.mp this) hno

/-! ## Creation, insertion and removal on indexable tables -/

/-- Creation: the created table has size 0, every chain empty and the requested
capacity, or the default one for a request of 0; with a positive default the
capacity is never zero, and on a table of at most `2 ^ 31` buckets the search for
any key finds nothing. -/
theorem table_create_fresh (D c : Nat) :
    (table_create D c).size = 0 ∧
    (∀ b, (table_create D c).buckets b = []) ∧
    (table_create D c).capacity = (if c = 0 then D else c) ∧
    (0 < D → (table_create D c).capacity ≠ 0) ∧
    ((table_create D c).indexable → ∀ key : CString, key.length ≤ INT_MAX →
      table_search (table_create D c) key = .ok none) := by
  refine ⟨rfl, fun _ => rfl, rfl, ?_, ?_⟩
  · intro hD
    show (if c = 0 then D else c) ≠ 0
    split <;> omega
  · intro hix key hk
    rw [table_search_ok _ key hix hk]
    rfl

theorem search_chain_of_not_has_key (t : Table) (key : CString) (h : ¬ t.has_key key) (b : Nat) :
    search_chain key (t.buckets b) = none := by
  rw [search_chain_eq_none_iff]
  intro p hp hk
  exact h ⟨b, p, hp, hk⟩

/-- Insert of an absent key on tables of at most `2 ^ 31` buckets: the new node is
appended to the chain of bucket `hash mod capacity`, every other chain is left
as it was, the capacity is kept and `size` grows by one. -/
theorem insert_absent_effect (t : Table) (ht : t.indexable) (key : CString)
    (hk : key.length ≤ INT_MAX) (value : Value) (type : PType) (hty : value.type = type)
    (habs : ¬ t.has_key key) :
    ∃ t1, table_insert t key value type = .ok t1 ∧ t1.capacity = t.capacity ∧
      t1.buckets (hash_value key % t.capacity)
        = t.buckets (hash_value key % t.capacity)
          ++ [{ key := key, value := value, type := type }] ∧
      (∀ b, b ≠ hash_value key % t.capacity → t1.buckets b = t.buckets b) ∧
      t1.size = t.size + 1 := by
  have hnone := search_chain_of_not_has_key t key habs (t.home key)
  obtain ⟨t1, hins, hcap, hb, hs, _⟩ := table_insert_spec t key value type ht hk hty
  refine ⟨t1, hins, hcap, ?_, ?_, ?_⟩
  · rw [hb]
    show Function.update t.buckets (t.home key) _ (t.home key) = _
    rw [Function.update_same, chain_put_of_absent _ _ _ _ hnone]
    rfl
  · intro b hne
    rw [hb]
    exact Function.update_noteq hne _ _
  · rw [hs, hnone]
    rfl

theorem apply_op_wf (t : Table) (op : Op) (ht : t.indexable) (hop : op.valid)
    (hwf : t.WF) :
    ∃ t1, apply_op t op = .ok t1 ∧ t1.capacity = t.capacity ∧ t1.WF := by
  cases op with
  | insert key value type =>
    exact ⟨_, table_insert_ok t key value type ht hop.1 hop.2, rfl,
      table_insert_wf t key value type ht hop.2 hwf⟩
  | remove key =>
    have hrm := table_remove_ok t key ht hop
    simp only [apply_op, hrm]
    cases hr : remove_chain key (t.buckets (t.home key)) with
    | none => exact ⟨t, rfl, rfl, hwf⟩
    | some c => exact ⟨_, rfl, rfl, table_remove_wf t key c ht hwf hr⟩

/-- The invariant on tables of at most `2 ^ 31` buckets: after any valid calls on
a created table the capacity is the one fixed at creation, every node sits in
the chain of bucket `hash mod capacity`, no chain repeats a key, and `size` is
the number of nodes over all chains. -/
theorem reachable_well_formed (ops : List Op) :
    ∀ t : Table, t.indexable → t.WF → (∀ op ∈ ops, op.valid) →
      ∃ t1, run_ops t ops = .ok t1 ∧ t1.capacity = t.capacity ∧ t1.WF := by
  induction ops with
  | nil => intro t _ hwf _; exact ⟨t, rfl, rfl, hwf⟩
  | cons op rest ih =>
    intro t ht hwf hops
    obtain ⟨t1, h1, hcap1, hwf1⟩ := apply_op_wf t op ht (hops op (List.mem_cons_self _ _)) hwf
    have ht1 : t1.indexable := by
      unfold Table.indexable; rw [hcap1]; exact ht
    obtain ⟨t2, h2, hcap2, hwf2⟩ := ih t1 ht1 hwf1
      (fun o ho => hops o (List.mem_cons_of_mem _ ho))
    exact ⟨t2, by simp only [run_ops, h1, h2], hcap2.trans hcap1, hwf2⟩

/-- Bucket selection on tables of at most `2 ^ 31` buckets: the index is
`hash mod capacity` and lies below the capacity. -/
theorem bucket_in_range (t : Table) (ht : t.indexable) (key : CString)
    (hk : key.length ≤ INT_MAX) :
    bucket t key = .ok (hash_value key % t.capacity) ∧
      hash_value key % t.capacity < t.capacity :=
  ⟨bucket_ok t key ht.1 ht.2 hk, Nat.mod_lt _ ht.1⟩

theorem chain_put_idem (key : CString) (value : Value) (type : PType) (c : List Pair) :
    chain_put key value type (chain_put key value type c) = chain_put key value type c := by
  induction c with
  | nil => simp [chain_put]
  | cons p rest ih =>
    by_cases hp : p.key = key
    · simp [chain_put, hp]
    · simp [chain_put, hp, ih]

theorem Table.ext_fields (t1 t2 : Table) (hb : t1.buckets = t2.buckets)
    (hc : t1.capacity = t2.capacity) (hs : t1.size = t2.size) : t1 = t2 := by
  cases t1; cases t2
  simp only at hb hc hs
  subst hb; subst hc; subst hs
  rfl

/-- Insert is idempotent on tables of at most `2 ^ 31` buckets: a second insert of
the same key, value and type returns the table the first one returned. -/
theorem insert_idempotent (t : Table) (ht : t.indexable) (key : CString)
    (hk : key.length ≤ INT_MAX) (value : Value) (type : PType) (hty : value.type = type) :
    ∃ t1, table_insert t key value type = .ok t1 ∧ table_insert t1 key value type = .ok t1 := by
  obtain ⟨t1, hi1, hc1, hb1, _, _⟩ := table_insert_spec t key value type ht hk hty
  have ht1 : t1.indexable := by
    unfold Table.indexable; rw [hc1]; exact ht
  obtain ⟨t2, hi2, hc2, hb2, hs2, _⟩ := table_insert_spec t1 key value type ht1 hk hty
  have hhome := Table.home_congr t1 t hc1 key
  have hfound : search_chain key (t1.buckets (t1.home key)) = some value := by
    rw [hb1, hhome, Function.update_same, search_chain_put, if_pos rfl]
  have heq : t2 = t1 := by
    apply Table.ext_fields
    · rw [hb2, hb1, hhome, Function.update_same, chain_put_idem, Function.update_idem]
    · exact hc2
    · rw [hs2, hfound]
      rfl
  exact ⟨t1, hi1, by rw [hi2, heq]⟩

theorem remove_chain_append_new (key : CString) (c : List Pair) (p : Pair) (hp : p.key = key)
    (habs : search_chain key c = none) : remove_chain key (c ++ [p]) = some c := by
  induction c with
  | nil => simp [remove_chain, hp]
  | cons q rest ih =>
    by_cases hq : q.key = key
    · simp [search_chain, hq] at habs
    · simp only [search_chain, hq, if_false] at habs
      simp [remove_chain, hq, ih habs]

/-- Insert then remove on tables of at most `2 ^ 31` buckets: for a key that is
in no chain, the insert followed by the removal returns true and gives back the
table as it was, chains and size. -/
theorem insert_then_remove (t : Table) (ht : t.indexable) (key : CString)
    (hk : key.length ≤ INT_MAX) (value : Value) (type : PType) (hty : value.type = type)
    (habs : ¬ t.has_key key) :
    ∃ t1, table_insert t key value type = .ok t1 ∧ table_remove t1 key = .ok (true, t) := by
  have hnone := search_chain_of_not_has_key t key habs (t.home key)
  obtain ⟨t1, hins, hc1, hb1, hs1, _⟩ := table_insert_spec t key value type ht hk hty
  have ht1 : t1.indexable := by
    unfold Table.indexable; rw [hc1]; exact ht
  have hhome := Table.home_congr t1 t hc1 key
  refine ⟨t1, hins, ?_⟩
  rw [table_remove_ok t1 key ht1 hk, hhome, hb1, Function.update_same,
    chain_put_of_absent _ _ _ _ hnone, remove_chain_append_new key _ _ rfl hnone]
  simp only [Except.ok.injEq, Prod.mk.injEq, true_and]
  apply Table.ext_fields
  · simp only [Function.update_idem, Function.update_eq_self]
  · exact hc1
  · show t1.size - 1 = t.size
    rw [hs1, hnone]
    simp

theorem remove_chain_split (key : CString) (c r : List Pair) (h : remove_chain key c = some r) :
    ∃ front p back, c = front ++ p :: back ∧ r = front ++ back ∧ p.key = key ∧
      ∀ q ∈ front, q.key ≠ key := by
  induction c generalizing r with
  | nil => simp [remove_chain] at h
  | cons q rest ih =>
    by_cases hq : q.key = key
    · simp only [remove_chain, hq, if_true, Option.some.injEq] at h
      subst h
      exact ⟨[], q, rest, rfl, rfl, hq, by simp⟩
    · simp only [remove_chain, hq, if_false] at h
      cases hr : remove_chain key rest with
      | none => simp [hr] at h
      | some r2 =>
        simp only [hr, Option.some.injEq] at h
        subst h
        obtain ⟨front, p, back, h1, h2, h3, h4⟩ := ih r2 hr
        refine ⟨q :: front, p, back, by simp [h1], by simp [h2], h3, ?_⟩
        intro x hx
        rcases List.mem_cons.mp hx with rfl | hx2
        · exact hq
        · exact h4 x hx2

/-- Removal of a present key on well-formed tables of at most `2 ^ 31` buckets:
the chain of the key's bucket loses exactly the node of that key and keeps the
others in their order, every other chain is left as it was, and the search for
any other key gives what it gave before. -/
theorem remove_frame (t : Table) (ht : t.indexable) (hwf : t.WF) (key : CString)
    (hk : key.length ≤ INT_MAX) (hhas : t.has_key key) :
    ∃ t1 front p back, table_remove t key = .ok (true, t1) ∧
      t.buckets (hash_value key % t.capacity) = front ++ p :: back ∧
      t1.buckets (hash_value key % t.capacity) = front ++ back ∧
      p.key = key ∧ (∀ q ∈ front ++ back, q.key ≠ key) ∧
      (∀ b, b ≠ hash_value key % t.capacity → t1.buckets b = t.buckets b) ∧
      ∀ k : CString, k ≠ key → k.length ≤ INT_MAX → table_search t1 k = table_search t k := by
  have hrm := table_remove_ok t key ht hk
  have hkey := Table.WF.has_key_iff t hwf key
  cases hr : remove_chain key (t.buckets (t.home key)) with
  | none =>
    rw [remove_chain_eq_none_iff] at hr
    rw [hkey, hr] at hhas
    exact absurd hhas (by simp)
  | some c =>
    rw [hr] at hrm
    obtain ⟨front, p, back, h1, h2, h3, h4⟩ := remove_chain_split key _ c hr
    have hnd := hwf.nodup (t.home key)
    rw [h1] at hnd
    refine ⟨_, front, p, back, hrm, h1, ?_, h3, ?_, ?_, ?_⟩
    · show Function.update t.buckets (t.home key) c (t.home key) = _
      rw [Function.update_same, h2]
    · intro q hq hqk
      rcases List.mem_append.mp hq with hf | hb
      · exact h4 q hf hqk
      · simp only [List.map_append, List.map_cons] at hnd
        have hnd2 := (List.nodup_append.mp hnd).2.1
        rw [List.nodup_cons] at hnd2
        exact hnd2.1 (by rw [h3, ← hqk]; exact List.mem_map_of_mem _ hb)
    · intro b hne
      exact Function.update_noteq hne _ _
    · intro k hne hkl
      rw [table_search_of_capacity _ t (by rfl) ht k hkl, table_search_ok t k ht hkl]
      by_cases hb : t.home k = t.home key
      · rw [hb]
        show Except.ok (search_chain k (Function.update t.buckets (t.home key) c (t.home key))) = _
        rw [Function.update_same, search_chain_remove_other key k _ c hr hne]
      · show Except.ok (search_chain k (Function.update t.buckets (t.home key) c (t.home k))) = _
        rw [Function.update_noteq hb]

/-- The recurrence of the hash for inputs the `int` counter can index: the empty
input hashes to the offset basis, and one more byte XORs it into the hash and
multiplies by the prime modulo `2 ^ 64`. -/
theorem hash_recurrence :
    hash_from_data [] = .ok FNV_OFFSET_BASIS ∧
    ∀ (s : List Byte) (b : Byte), (s ++ [b]).length ≤ INT_MAX →
      hash_from_data s = .ok (hash_value s) ∧
      hash_from_data (s ++ [b]) = .ok ((hash_value s ^^^ b.val) * FNV_PRIME % 2 ^ 64) := by
  refine ⟨rfl, ?_⟩
  intro s b hlen
  have hs : s.length ≤ INT_MAX := by
    simp only [List.length_append, List.length_singleton] at hlen
    omega
  refine ⟨hash_from_data_ok s hs, ?_⟩
  rw [hash_from_data_ok _ hlen]
  unfold hash_value
  rw [List.foldl_append]
  rfl

/-! ## Evaluations of creation, hashing and the bucket index -/

/-- C11 at a failing input. The table created for a request of `2 ^ 32` buckets
has size 0 and that capacity, and its chains are empty, but the search for the
never-inserted key `c` stores `hash mod capacity = 2248273906` in an `int` as
`-2046693390` and indexes the bucket array with it. -/
theorem created_table_search_outside :
    (table_create 1024 4294967296).size = 0 ∧
    (table_create 1024 4294967296).capacity = 4294967296 ∧
    (table_create 1024 4294967296).buckets 2248273906 = [] ∧
    hash_from_data [99] = .ok 12638189399578898418 ∧
    12638189399578898418 % 4294967296 = 2248273906 ∧
    to_int 2248273906 = -2046693390 ∧
    table_search (table_create 1024 4294967296) [99] = .error .outOfBounds := by
  decide

/-- C12 at a failing input. For the one-byte input `a` the code returns
`0xaf63dc4c8601ec8c`, the value of XOR first and multiply second, while FNV-1,
multiply first and XOR second, is `0xaf63bd4c8601b7be`. -/
theorem hash_is_not_fnv1 :
    hash_from_data [97] = .ok 0xaf63dc4c8601ec8c ∧
    fnv1_reference [97] = 0xaf63bd4c8601b7be ∧
    hash_from_data [97] ≠ .ok (fnv1_reference [97]) := by
  decide

/-- C13 at a failing input. On a fresh table of `2 ^ 33` buckets the insert of the
new key `aaa` succeeds, but `hash mod capacity = 4383002018` is stored in the
`int` as `88034722`: the chain of bucket `hash mod capacity` stays empty and the
node is appended to the chain of bucket 88034722. -/
theorem insert_outside_home_bucket :
    ∃ t1, table_insert (table_create 1024 8589934592) [97, 97, 97] (.number 1) .NUMBER = .ok t1 ∧
      hash_from_data [97, 97, 97] = .ok 16653392337757490594 ∧
      16653392337757490594 % 8589934592 = 4383002018 ∧
      t1.buckets 4383002018 = [] ∧
      t1.buckets 88034722 = [{ key := [97, 97, 97], value := .number 1, type := .NUMBER }] :=
  ⟨_, rfl, by decide, by decide, by decide, by decide⟩

/-- C14 at a failing input. After one insert of the key `aab` into a created table
of `2 ^ 33` buckets the node sits in the chain of bucket 88034287, while
`hash_from_data(key) mod capacity` is 4383001583. -/
theorem pair_outside_home_bucket :
    ∃ t, run_ops (table_create 1024 8589934592) [.insert [97, 97, 98] (.number 1) .NUMBER]
        = .ok t ∧
      t.capacity = 8589934592 ∧
      hash_from_data [97, 97, 98] = .ok 16653391238245862383 ∧
      16653391238245862383 % 8589934592 = 4383001583 ∧
      t.buckets 88034287 = [{ key := [97, 97, 98], value := .number 1, type := .NUMBER }] ∧
      t.buckets 4383001583 = [] :=
  ⟨_, rfl, rfl, by decide, by decide, by decide, by decide⟩

/-- C15 at failing inputs. With `2 ^ 32` buckets and the empty key the index kept
in the `int` is `-2078137563`, below 0 and different from
`hash mod capacity = 2216829733`; with `2 ^ 33` buckets and the key `aac` it is
88033852, inside the array but different from `hash mod capacity = 4383001148`. -/
theorem bucket_index_outside_range :
    to_int (14695981039346656037 % 4294967296) = -2078137563 ∧
    (14695981039346656037 % 4294967296 : Nat) = 2216829733 ∧
    bucket (table_create 1024 4294967296) [] = .error .outOfBounds ∧
    hash_from_data [97, 97, 99] = .ok 16653390138734234172 ∧
    16653390138734234172 % 8589934592 = 4383001148 ∧
    bucket (table_create 1024 8589934592) [97, 97, 99] = .ok 88033852 := by
  decide

/-- C16 at a failing input. On a fresh table of `2 ^ 32` buckets the insert of the
key `e` stores `hash mod capacity = 2248271296` in an `int` as `-2046696000`;
the first of the two inserts already works outside the bucket array. -/
theorem repeated_insert_outside :
    hash_from_data [101] = .ok 12638182802509129152 ∧
    to_int (12638182802509129152 % 4294967296) = -2046696000 ∧
    table_insert (table_create 1024 4294967296) [101] (.number 1) .NUMBER
      = .error .outOfBounds :=
  ⟨by decide, by decide, rfl⟩

/-- C17 at a failing input. On a fresh table of `2 ^ 32` buckets the insert of the
absent key `f` stores `hash mod capacity = 2248272601` in an `int` as
`-2046694695`, and so does the removal that should undo it. -/
theorem insert_remove_outside :
    hash_from_data [102] = .ok 12638186101044013785 ∧
    to_int (12638186101044013785 % 4294967296) = -2046694695 ∧
    table_insert (table_create 1024 4294967296) [102] (.number 1) .NUMBER
      = .error .outOfBounds ∧
    table_remove (table_create 1024 4294967296) [102] = .error .outOfBounds :=
  ⟨by decide, by decide, rfl, rfl⟩

/-- C18 at a failing input. In a table of `2 ^ 33` buckets that holds the key
`aad`, the removal of `aad` returns true and empties the chain of bucket
88033417, which is not the key's bucket `hash mod capacity = 4383000713`; the
chain of that bucket is empty before and after. -/
theorem remove_outside_home_bucket :
    ∃ t1 t2,
      table_insert (table_create 1024 8589934592) [97, 97, 100] (.number 1) .NUMBER = .ok t1 ∧
      table_remove t1 [97, 97, 100] = .ok (true, t2) ∧
      hash_from_data [97, 97, 100] = .ok 16653389039222605961 ∧
      16653389039222605961 % 8589934592 = 4383000713 ∧
      t1.buckets 4383000713 = [] ∧ t2.buckets 4383000713 = [] ∧
      t1.buckets 88033417 = [{ key := [97, 97, 100], value := .number 1, type := .NUMBER }] ∧
      t2.buckets 88033417 = [] :=
  ⟨_, _, rfl, rfl, by decide, by decide, by decide, by decide, by decide, by decide⟩

/-- C19 at a failing input. For a sequence of `INT_MAX` bytes the hash is
computed; for a sequence `s` of `2 ^ 31` bytes, and for `s` followed by one more
byte, the `int` counter is incremented at `INT_MAX` before the input ends. -/
theorem hash_counter_overflow :
    hash_from_data (List.replicate 2147483647 (97 : Byte))
      = .ok (hash_value (List.replicate 2147483647 (97 : Byte))) ∧
    hash_from_data (List.replicate 2147483648 (97 : Byte)) = .error .signedOverflow ∧
    hash_from_data (List.replicate 2147483648 (97 : Byte) ++ [98])
      = .error .signedOverflow := by
  refine ⟨?_, ?_, ?_⟩
  · apply hash_from_data_ok
    rw [List.length_replicate]
    exact Nat.le_refl _
  · apply hash_loop_overflow _ 0 FNV_OFFSET_BASIS (Nat.zero_le _)
    rw [List.length_replicate]
    exact Nat.lt_succ_self _
  · apply hash_loop_overflow _ 0 FNV_OFFSET_BASIS (Nat.zero_le _)
    rw [List.length_append, List.length_replicate, List.length_singleton]
    exact Nat.lt_succ_of_lt (Nat.lt_succ_self _)

end DuplicateFinder
